import Mathlib

/-!
Verification of fuzzystrmatch's dameraulevenshtein.c.

The C source computes edit distances between multibyte strings.  We embed it
shallowly: a character (the unit pg_mblen steps over) is a nonempty list of
bytes, a text value is a list of characters.  DP rows (the palloc'd int
arrays `prev`/`curr`, and `row0/row1/row2` of the three-row engine) are
modelled as total functions `Nat → Nat`; cells the C code never writes are 0
in the model (palloc does not initialize memory; the proofs below establish
that such cells never influence any result the engine returns).  All loops
are structural recursions on an explicit fuel equal to the trip count of the
corresponding C loop, so the definitions compute by kernel reduction.
Costs are the four nonnegative int penalties (`Nat` in the model); the
bounded engine's `max_d` stays an `Int` because the code uses a negative
value as the "no bound" sentinel (and internally re-assigns `max_d = -1` to
disable windowing).
-/

namespace FuzzyStrMatch

/-- MAX_DAMERAU_LEVENSHTEIN_STRLEN from the source. -/
def MAXLEN : Nat := 255

/-- The single error the engine raises (ereport ERROR at lines 145-148). -/
inductive DLError where
  | tooLong
  deriving DecidableEq

/-- A character: the byte sequence pg_mblen would step over (nonempty for
well-formed input). -/
abbrev PgChar := List Nat

/-- A text value: its sequence of characters. -/
abbrev PgText := List PgChar

/-- VARSIZE_ANY_EXHDR: total byte length of the text. -/
def byteLen (s : PgText) : Nat := (s.map List.length).sum

/-- Well-formedness of a decoded text: every character consists of at least
one byte (pg_mblen never returns 0). -/
def Wf (s : PgText) : Prop := ∀ c ∈ s, c ≠ []

/-- Modelled from the spec: the helper rest_of_char_same is declared in the
surrounding fuzzystrmatch module, not in this repository's source; per the
spec the substitution test "compare[s] full character identity (not raw
bytes)": after the last bytes and the widths matched, the remaining byte
spans are compared, so the staged test as a whole decides byte-span
equality. -/
def rest_of_char_same (x y : List Nat) : Bool := x == y

/-- The staged character comparison of the multibyte inner loop
(lines 304-306): last bytes first, then widths, then the rest of the
bytes. -/
def char_cmp (x y : PgChar) : Bool :=
  x.getLastD 0 == y.getLastD 0 && x.length == y.length &&
    (x.length == 1 || rest_of_char_same x y)

/-- The staged comparison decides exactly character (byte-span) equality. -/
theorem char_cmp_eq (x y : PgChar) : char_cmp x y = true ↔ x = y := by
  unfold char_cmp rest_of_char_same
  constructor
  · intro h
    simp only [Bool.and_eq_true, Bool.or_eq_true, beq_iff_eq] at h
    rcases h with ⟨⟨hlast, hlen⟩, h1 | hrest⟩
    · match x, y, hlen, h1 with
      | [a], [b], _, _ =>
        simpa [List.getLastD] using hlast
    · simpa using hrest
  · rintro rfl
    simp

/-- Match predicate of the multibyte ("slow") inner loop for row j, column i:
compare source character i-1 with target character j-1. -/
def slowMatch (s t : PgText) (j i : Nat) : Bool :=
  char_cmp (s.getD (i - 1) []) (t.getD (j - 1) [])

/-- Match predicate of the single-byte fast path: compare the bytes *x and *y
directly (lines 323-340). -/
def fastMatch (s t : PgText) (j i : Nat) : Bool :=
  (s.getD (i - 1) []).headD 0 == (t.getD (j - 1) []).headD 0

/-- Write one cell of a DP row. -/
def updateRow (r : Nat → Nat) (k v : Nat) : Nat → Nat :=
  fun i => if i = k then v else r i

theorem updateRow_same (r : Nat → Nat) (k v : Nat) : updateRow r k v k = v := by
  simp [updateRow]

theorem updateRow_other (r : Nat → Nat) (k v i : Nat) (h : i ≠ k) :
    updateRow r k v i = r i := by
  simp [updateRow, h]

/-- The critical inner loop (lines 283-341): fill `curr` at columns
i, i+1, ..., i+fuel-1 from the previous row; each cell is the minimum of the
insertion, deletion and substitution costs. -/
def fillRow (mf : Nat → Bool) (ic dc sc : Nat) (prev : Nat → Nat) :
    Nat → Nat → (Nat → Nat) → (Nat → Nat)
  | 0, _, curr => curr
  | fuel + 1, i, curr =>
    fillRow mf ic dc sc prev fuel (i + 1)
      (updateRow curr i
        (min (min (prev i + ic) (curr (i - 1) + dc))
          (prev (i - 1) + (if mf i then 0 else sc))))

/-- Initialization row (line 234-235): prev[i] = i * del_c for i below the
initial stop column; other cells model uninitialized palloc memory as 0. -/
def initRow (dc stop : Nat) : Nat → Nat :=
  fun i => if i < stop then i * dc else 0

/-- One iteration of the unbounded engine's row loop (lines 238-341 compiled
without DAMERAU_LEVENSHTEIN_LESS_EQUAL): special-case curr[0] = j * ins_c,
fill columns 1..m, swap the rows. -/
def rowStepU (mf : Nat → Nat → Bool) (ic dc sc m1 : Nat) (j : Nat)
    (pc : (Nat → Nat) × (Nat → Nat)) : (Nat → Nat) × (Nat → Nat) :=
  (fillRow (mf j) ic dc sc pc.1 (m1 - 1) 1 (updateRow pc.2 0 (j * ic)), pc.1)

/-- Run a row transformation for rows j, j+1, ..., j+fuel-1. -/
def runRowsU {α : Type} (step : Nat → α → α) : Nat → Nat → α → α
  | 0, _, st => st
  | fuel + 1, j, st => runRowsU step fuel (j + 1) (step j st)

/-- The unbounded two-row engine dameraulevenshtein_internal (lines 78-418
compiled without DAMERAU_LEVENSHTEIN_LESS_EQUAL).  The transpose cost
trans_c is accepted but never read, as in the source.  The multibyte
dispatch follows line 208: the width cache (and hence the staged character
comparison) is used iff some byte length differs from the character
count. -/
def dameraulevenshtein_internal (s t : PgText) (ic dc sc tc : Nat) :
    Except DLError Nat :=
  let m := s.length
  let n := t.length
  if m = 0 then .ok (n * ic)
  else if n = 0 then .ok (m * dc)
  else if MAXLEN < m ∨ MAXLEN < n then .error .tooLong
  else
    let mf := if m = byteLen s ∧ n = byteLen t then fastMatch s t else slowMatch s t
    let p := runRowsU (rowStepU mf ic dc sc (m + 1)) n 1
      (initRow dc (m + 1), fun _ => 0)
    .ok (p.1 m)

/-! The bounded engine dameraulevenshtein_less_equal_internal: the same body
compiled with DAMERAU_LEVENSHTEIN_LESS_EQUAL, which adds the bound
preprocessing of lines 150-198 and the per-row window sliding of
lines 244-270 and 351-409. -/

/-- Residual lower-bound used by the window slider (lines 376-379 and
387-391): net_inserts > 0 costs that many insertions, otherwise that many
deletions. -/
def slideCost (ic dc : Nat) (net : Int) : Int :=
  if 0 < net then net * ic else -net * dc

/-- Theoretical minimum distance (lines 165-168): the cost of making the
lengths equal. -/
def minTheoN (m n ic dc : Nat) : Nat :=
  if n < m then (m - n) * dc else (n - m) * ic

/-- Theoretical maximum distance (lines 171-173), using the substitution
cost capped at ins_c + del_c. -/
def maxTheoN (m n ic dc sc : Nat) : Nat :=
  minTheoN m n ic dc + min sc (ic + dc) * min m n

/-- Outcome of the bound preprocessing (lines 150-198). -/
inductive BoundPlan where
  | reject
  | run (md : Int) (stop0 : Nat)
  deriving DecidableEq

/-- The bound preprocessing (lines 150-198), performed on the original
character counts m, n before they are incremented: either the bound is
impossibly tight (return max_d + 1 at once), or windowing is disabled
(max_d := -1), or an initial stop column is computed from the slack divided
by ins_c + del_c. -/
def boundSetup (m n ic dc sc : Nat) (max_d : Int) : BoundPlan :=
  if 0 ≤ max_d then
    let minTheo := minTheoN m n ic dc
    if max_d < (minTheo : Int) then .reject
    else if (maxTheoN m n ic dc sc : Int) ≤ max_d then .run (-1) (m + 1)
    else if 0 < ic + dc then
      let slack := max_d.toNat - minTheo
      let best := if n < m then m - n else 0
      let stopC := best + slack / (ic + dc) + 1
      .run max_d (if m < stopC then m + 1 else stopC)
    else .run max_d (m + 1)
  else .run max_d (m + 1)

/-- Slide the stop column left (lines 373-382): while the rightmost cell's
value plus its residual exceeds max_d, shrink the window.  Structural on the
stop column itself, exactly the loop's variant. -/
def stopSlide (md : Int) (ic dc : Nat) (zp : Int) (prev : Nat → Nat) :
    Nat → Nat
  | 0 => 0
  | st + 1 =>
    if (prev st : Int) + slideCost ic dc ((st : Int) - zp) ≤ md then st + 1
    else stopSlide md ic dc zp prev st

/-- Slide the start column right (lines 385-404): while the leftmost cell's
value plus its residual exceeds max_d, permanently invalidate the column in
both rows (write max_d + 1) and advance.  The fuel is stop - start, the
loop's variant; the source also advances its s_data byte cursor in lockstep,
which the model renders by indexing characters directly. -/
def startSlide (md : Int) (ic dc : Nat) (zp : Int) (K : Nat) :
    Nat → Nat → (Nat → Nat) → (Nat → Nat) → Nat × (Nat → Nat) × (Nat → Nat)
  | 0, start, prev, curr => (start, prev, curr)
  | fuel + 1, start, prev, curr =>
    if (prev start : Int) + slideCost ic dc ((start : Int) - zp) ≤ md then
      (start, prev, curr)
    else
      startSlide md ic dc zp K fuel (start + 1)
        (updateRow prev start K) (updateRow curr start K)

/-- The mutable state of the bounded row loop. -/
structure LoopSt where
  prev : Nat → Nat
  curr : Nat → Nat
  start : Nat
  stop : Nat

/-- One iteration of the bounded engine's row loop (lines 238-411 with
DAMERAU_LEVENSHTEIN_LESS_EQUAL): initialize the cell at the advancing stop
column (lines 252-256), special-case curr[0] only when start_column is 0
(lines 264-270), fill the windowed columns, swap, and when max_d ≥ 0 slide
both window edges and return max_d + 1 if they cross (lines 360-409).
m1, n1 are the incremented lengths m + 1, n + 1 of line 223-224. -/
def lessEqualRowStep (mf : Nat → Nat → Bool) (ic dc sc : Nat) (md : Int)
    (m1 n1 : Nat) (j : Nat) (st : LoopSt) : Sum Nat LoopSt :=
  let K := (md + 1).toNat
  let prevE := if st.stop < m1 then updateRow st.prev st.stop K else st.prev
  let stopP := if st.stop < m1 then st.stop + 1 else st.stop
  let curr0 := if st.start = 0 then updateRow st.curr 0 (j * ic) else st.curr
  let i0 := if st.start = 0 then 1 else st.start
  let filled := fillRow (mf j) ic dc sc prevE (stopP - i0) i0 curr0
  if 0 ≤ md then
    let zp : Int := (j : Int) - ((n1 : Int) - (m1 : Int))
    let stop2 := stopSlide md ic dc zp filled stopP
    let r := startSlide md ic dc zp K (stop2 - st.start) st.start filled prevE
    if stop2 ≤ r.1 then .inl K
    else .inr ⟨r.2.1, r.2.2, r.1, stop2⟩
  else .inr ⟨filled, prevE, st.start, stopP⟩

/-- Run the bounded row loop for rows j, ..., j+fuel-1, stopping on an early
return. -/
def runRows (step : Nat → LoopSt → Sum Nat LoopSt) :
    Nat → Nat → LoopSt → Sum Nat LoopSt
  | 0, _, st => .inr st
  | fuel + 1, j, st =>
    match step j st with
    | .inl v => .inl v
    | .inr st2 => runRows step fuel (j + 1) st2

/-- Wrap up the bounded row loop: an early return carries the sentinel value
itself, otherwise the answer sits in prev[m-1] after the final swap
(line 417). -/
def lessEqualFinish (m : Nat) : Sum Nat LoopSt → Except DLError Nat
  | .inl v => .ok v
  | .inr st => .ok (st.prev m)

/-- Run the part of the bounded engine that follows the preprocessing of
lines 150-198, on the plan that preprocessing produced. -/
def lessEqualRun (s t : PgText) (ic dc sc : Nat) (max_d : Int) :
    BoundPlan → Except DLError Nat
  | .reject => .ok ((max_d + 1).toNat)
  | .run md stop0 =>
    let m := s.length
    let n := t.length
    let mf := if m = byteLen s ∧ n = byteLen t then fastMatch s t else slowMatch s t
    lessEqualFinish m (runRows (lessEqualRowStep mf ic dc sc md (m + 1) (n + 1)) n 1
      ⟨initRow dc stop0, fun _ => 0, 0, stop0⟩)

/-- The bounded two-row engine dameraulevenshtein_less_equal_internal
(lines 78-418 compiled with DAMERAU_LEVENSHTEIN_LESS_EQUAL).  The empty
cases and the length check (lines 134-148) precede the bound handling;
trans_c is accepted but never read. -/
def dameraulevenshtein_less_equal_internal (s t : PgText) (ic dc sc tc : Nat)
    (max_d : Int) : Except DLError Nat :=
  let m := s.length
  let n := t.length
  if m = 0 then .ok (n * ic)
  else if n = 0 then .ok (m * dc)
  else if MAXLEN < m ∨ MAXLEN < n then .error .tooLong
  else lessEqualRun s t ic dc sc max_d (boundSetup m n ic dc sc max_d)

/-! The reference dynamic program.  `levRowF ic dc mc j i` is the cell
(row j over the target, column i over the source) of the conceptual
(m+1)x(n+1) matrix described in the comment at lines 52-56, with a generic
per-cell substitution cost `mc i j` (0 on a match, sub_c otherwise, once
instantiated).  It is defined structurally (row by row, and left to right
inside a row) so that it computes by kernel reduction. -/

/-- One row of the reference DP, from the previous row. -/
def levCell (ic dc : Nat) (mc : Nat → Nat → Nat) (prevRow : Nat → Nat)
    (j : Nat) : Nat → Nat
  | 0 => (j + 1) * ic
  | i + 1 =>
    min (min (prevRow (i + 1) + ic) (levCell ic dc mc prevRow j i + dc))
      (prevRow i + mc i j)

/-- The reference DP table, row-indexed then column-indexed. -/
def levRowF (ic dc : Nat) (mc : Nat → Nat → Nat) : Nat → Nat → Nat
  | 0 => fun i => i * dc
  | j + 1 => levCell ic dc mc (levRowF ic dc mc j) j

/-- Substitution cost of the engines: 0 when source character i equals
target character j, sub_c otherwise. -/
def matchCost (s t : PgText) (sc : Nat) (i j : Nat) : Nat :=
  if s.getD i [] = t.getD j [] then 0 else sc

/-- The distance table for two concrete texts. -/
def levW (s t : PgText) (ic dc sc : Nat) : Nat → Nat → Nat :=
  levRowF ic dc (matchCost s t sc)

section DP

variable (ic dc : Nat) (mc : Nat → Nat → Nat)

theorem levRowF_zero (i : Nat) : levRowF ic dc mc 0 i = i * dc := rfl

theorem levRowF_succ_zero (j : Nat) : levRowF ic dc mc (j + 1) 0 = (j + 1) * ic := rfl

theorem levRowF_succ_succ (j i : Nat) :
    levRowF ic dc mc (j + 1) (i + 1) =
      min (min (levRowF ic dc mc j (i + 1) + ic) (levRowF ic dc mc (j + 1) i + dc))
        (levRowF ic dc mc j i + mc i j) := rfl

theorem levRowF_col_zero (j : Nat) : levRowF ic dc mc j 0 = j * ic := by
  cases j with
  | zero => simp [levRowF_zero]
  | succ j => exact levRowF_succ_zero ic dc mc j

/-- Which alternative a three-way minimum takes. -/
theorem min3_attain (a b c : Nat) :
    min (min a b) c = a ∨ min (min a b) c = b ∨ min (min a b) c = c := by
  rcases Nat.le_total a b with h | h <;> rcases Nat.le_total (min a b) c with h2 | h2 <;>
    simp [Nat.min_eq_left, Nat.min_eq_right, h, h2] <;> omega

theorem lev_le_up (j i : Nat) :
    levRowF ic dc mc (j + 1) i ≤ levRowF ic dc mc j i + ic := by
  cases i with
  | zero =>
    rw [levRowF_succ_zero, levRowF_col_zero, Nat.succ_mul]
  | succ i =>
    rw [levRowF_succ_succ]
    exact le_trans (Nat.min_le_left _ _) (le_trans (Nat.min_le_left _ _) le_rfl)

theorem lev_le_left (j i : Nat) :
    levRowF ic dc mc j (i + 1) ≤ levRowF ic dc mc j i + dc := by
  cases j with
  | zero =>
    rw [levRowF_zero, levRowF_zero, Nat.succ_mul]
  | succ j =>
    rw [levRowF_succ_succ]
    exact le_trans (Nat.min_le_left _ _) (Nat.min_le_right _ _)

theorem lev_le_diag (j i : Nat) :
    levRowF ic dc mc (j + 1) (i + 1) ≤ levRowF ic dc mc j i + mc i j := by
  rw [levRowF_succ_succ]
  exact Nat.min_le_right _ _

/-- Column Lipschitz bound: moving one column left costs at most ins_c. -/
theorem lev_col_lipschitz (j : Nat) : ∀ i : Nat,
    levRowF ic dc mc j i ≤ levRowF ic dc mc j (i + 1) + ic := by
  induction j with
  | zero =>
    intro i
    rw [levRowF_zero, levRowF_zero]
    exact le_trans (Nat.mul_le_mul_right dc (Nat.le_succ i)) (Nat.le_add_right _ _)
  | succ j ih =>
    intro i
    rcases min3_attain (levRowF ic dc mc j (i + 1) + ic)
        (levRowF ic dc mc (j + 1) i + dc) (levRowF ic dc mc j i + mc i j) with h | h | h <;>
      rw [levRowF_succ_succ, h]
    · calc levRowF ic dc mc (j + 1) i ≤ levRowF ic dc mc j i + ic := lev_le_up ic dc mc j i
        _ ≤ (levRowF ic dc mc j (i + 1) + ic) + ic :=
          Nat.add_le_add_right (ih i) ic
    · omega
    · calc levRowF ic dc mc (j + 1) i ≤ levRowF ic dc mc j i + ic := lev_le_up ic dc mc j i
        _ ≤ (levRowF ic dc mc j i + mc i j) + ic := by omega

/-- Diagonal monotonicity: a cell is at most its lower-right diagonal
neighbour. -/
theorem lev_diag_mono (j : Nat) : ∀ i : Nat,
    levRowF ic dc mc j i ≤ levRowF ic dc mc (j + 1) (i + 1) := by
  intro i
  induction i with
  | zero =>
    rcases min3_attain (levRowF ic dc mc j 1 + ic)
        (levRowF ic dc mc (j + 1) 0 + dc) (levRowF ic dc mc j 0 + mc 0 j) with h | h | h <;>
      rw [levRowF_succ_succ, h]
    · exact lev_col_lipschitz ic dc mc j 0
    · rw [levRowF_succ_zero, levRowF_col_zero]
      calc j * ic ≤ (j + 1) * ic := Nat.mul_le_mul_right ic (Nat.le_succ j)
        _ ≤ (j + 1) * ic + dc := Nat.le_add_right _ _
    · omega
  | succ i ih =>
    rcases min3_attain (levRowF ic dc mc j (i + 2) + ic)
        (levRowF ic dc mc (j + 1) (i + 1) + dc) (levRowF ic dc mc j (i + 1) + mc (i + 1) j) with
        h | h | h <;> rw [levRowF_succ_succ, h]
    · exact lev_col_lipschitz ic dc mc j (i + 1)
    · calc levRowF ic dc mc j (i + 1) ≤ levRowF ic dc mc j i + dc := lev_le_left ic dc mc j i
        _ ≤ levRowF ic dc mc (j + 1) (i + 1) + dc := Nat.add_le_add_right ih dc
    · omega

/-- Walking right along a row costs at most del_c per column. -/
theorem lev_row_chain (j i : Nat) : ∀ k : Nat,
    levRowF ic dc mc j (i + k) ≤ levRowF ic dc mc j i + k * dc := by
  intro k
  induction k with
  | zero => simp
  | succ k ih =>
    have h1 := lev_le_left ic dc mc j (i + k)
    have h2 : levRowF ic dc mc j (i + (k + 1)) = levRowF ic dc mc j ((i + k) + 1) := rfl
    rw [h2, Nat.succ_mul]
    omega

end DP

section Residual

variable (ic dc : Nat) (mc : Nat → Nat → Nat)

/-- Cost of reaching cell (j, i) from the origin, counting only the net
length change: j - i forced insertions or i - j forced deletions. -/
def netCost (j i : Nat) : Nat :=
  if i ≤ j then (j - i) * ic else (i - j) * dc

theorem netCost_up (j i : Nat) : netCost ic dc (j + 1) i ≤ netCost ic dc j i + ic := by
  unfold netCost
  rcases Nat.lt_trichotomy i (j + 1) with h | h | h
  · have hij : i ≤ j := by omega
    rw [if_pos (by omega), if_pos hij, show j + 1 - i = (j - i) + 1 by omega, Nat.succ_mul]
  · subst h
    rw [if_pos le_rfl, Nat.sub_self, Nat.zero_mul]
    exact Nat.zero_le _
  · rw [if_neg (by omega), if_neg (by omega), show i - j = (i - (j + 1)) + 1 by omega,
      Nat.succ_mul]
    exact le_trans (Nat.le_add_right _ _) (Nat.le_add_right _ _)

theorem netCost_left (j i : Nat) : netCost ic dc j (i + 1) ≤ netCost ic dc j i + dc := by
  unfold netCost
  rcases Nat.lt_trichotomy j (i + 1) with h | h | h
  · rcases Nat.eq_or_lt_of_le (by omega : j ≤ i) with h2 | h2
    · subst h2
      rw [if_neg (by omega), if_pos le_rfl, Nat.sub_self, Nat.zero_mul,
        show j + 1 - j = 1 by omega, Nat.one_mul]
      exact Nat.le_of_eq (Nat.zero_add dc).symm
    · rw [if_neg (by omega), if_neg (by omega), show i + 1 - j = (i - j) + 1 by omega,
        Nat.succ_mul]
  · rw [if_pos (by omega), if_pos (by omega), show j - i = (j - (i + 1)) + 1 by omega,
      Nat.succ_mul]
    exact le_trans (Nat.le_add_right _ _) (Nat.le_add_right _ _)
  · rw [if_pos (by omega), if_pos (by omega), show j - i = (j - (i + 1)) + 1 by omega,
      Nat.succ_mul]
    exact le_trans (Nat.le_add_right _ _) (Nat.le_add_right _ _)

theorem netCost_diag (j i : Nat) : netCost ic dc (j + 1) (i + 1) = netCost ic dc j i := by
  unfold netCost
  rcases Nat.lt_or_ge j i with h | h
  · rw [if_neg (by omega), if_neg (by omega)]
    congr 1
    exact Nat.succ_sub_succ i j
  · rw [if_pos (by omega), if_pos h]
    congr 1
    exact Nat.succ_sub_succ j i

/-- Every cell of the DP is at least the forced net-length cost of reaching
it. -/
theorem lev_ge_netCost (j : Nat) : ∀ i : Nat,
    netCost ic dc j i ≤ levRowF ic dc mc j i := by
  induction j with
  | zero =>
    intro i
    rw [levRowF_zero]
    unfold netCost
    cases i with
    | zero => simp
    | succ i =>
      rw [if_neg (by omega)]
      simp
  | succ j ih =>
    intro i
    induction i with
    | zero =>
      rw [levRowF_succ_zero]
      unfold netCost
      rw [if_pos (by omega)]
      simp
    | succ i ih2 =>
      rw [levRowF_succ_succ]
      refine le_min (le_min ?_ ?_) ?_
      · have h1 := netCost_up ic dc j (i + 1)
        have h2 := ih (i + 1)
        exact le_trans h1 (Nat.add_le_add_right h2 ic)
      · have h1 := netCost_left ic dc (j + 1) i
        exact le_trans h1 (Nat.add_le_add_right ih2 dc)
      · have h1 := netCost_diag ic dc j i
        have h2 := ih i
        rw [h1]
        exact le_trans h2 (Nat.le_add_right _ _)

/-- Residual lower bound from cell (j, i) to the final cell (N, M): the net
number of forced insertions or deletions in the remaining suffixes, priced
at ins_c resp. del_c.  This is the quantity the slider computes from
net_inserts = ii - zp (lines 370-379). -/
def resD (M N j i : Nat) : Nat :=
  if N + i ≤ M + j then (M + j - (N + i)) * dc else (N + i - (M + j)) * ic

theorem resD_final (M N : Nat) : resD ic dc M N N M = 0 := by
  unfold resD
  rw [if_pos (by omega), show M + N - (N + M) = 0 by omega, Nat.zero_mul]

theorem resD_diag (M N j i : Nat) :
    resD ic dc M N (j + 1) (i + 1) = resD ic dc M N j i := by
  unfold resD
  rcases Nat.lt_or_ge (M + j) (N + i) with h | h
  · rw [if_neg (by omega), if_neg (by omega)]
    congr 1
    rw [Nat.add_succ, Nat.add_succ]
    exact Nat.succ_sub_succ _ _
  · rw [if_pos (by omega), if_pos (by omega)]
    congr 1
    rw [Nat.add_succ, Nat.add_succ]
    exact Nat.succ_sub_succ _ _

theorem resD_up (M N j i : Nat) :
    resD ic dc M N j i ≤ ic + resD ic dc M N (j + 1) i := by
  unfold resD
  rcases Nat.lt_trichotomy (N + i) (M + j + 1) with h | h | h
  · rw [if_pos (by omega), if_pos (by omega),
      show M + (j + 1) - (N + i) = (M + j - (N + i)) + 1 by omega, Nat.succ_mul]
    exact le_trans (Nat.le_add_right _ _) (Nat.le_add_left _ _)
  · rw [if_neg (by omega), if_pos (by omega), show N + i - (M + j) = 1 by omega,
      show M + (j + 1) - (N + i) = 0 by omega, Nat.one_mul, Nat.zero_mul]
    exact Nat.le_add_right ic 0
  · rw [if_neg (by omega), if_neg (by omega),
      show N + i - (M + j) = (N + i - (M + (j + 1))) + 1 by omega, Nat.succ_mul]
    exact Nat.le_of_eq (Nat.add_comm _ _)

theorem resD_left (M N j i : Nat) :
    resD ic dc M N j i ≤ dc + resD ic dc M N j (i + 1) := by
  unfold resD
  rcases Nat.lt_trichotomy (N + i) (M + j) with h | h | h
  · rw [if_pos (by omega)]
    rcases Nat.lt_or_ge (N + (i + 1)) (M + j + 1) with h2 | h2
    · rw [if_pos (by omega), show M + j - (N + i) = (M + j - (N + (i + 1))) + 1 by omega,
        Nat.succ_mul]
      exact Nat.le_of_eq (Nat.add_comm _ _)
    · rw [if_pos (by omega), show M + j - (N + i) = 1 by omega,
        show M + j - (N + (i + 1)) = 0 by omega, Nat.one_mul, Nat.zero_mul]
      exact Nat.le_add_right dc 0
  · rw [if_pos (by omega), show M + j - (N + i) = 0 by omega, Nat.zero_mul]
    exact Nat.zero_le _
  · rw [if_neg (by omega), if_neg (by omega),
      show N + (i + 1) - (M + j) = (N + i - (M + j)) + 1 by omega, Nat.succ_mul]
    exact le_trans (Nat.le_add_right _ _) (Nat.le_add_left _ _)

theorem resD_rowN (M N i : Nat) (h : i ≤ M) :
    resD ic dc M N N i = (M - i) * dc := by
  unfold resD
  rw [if_pos (by omega)]
  congr 1
  omega

theorem resD_origin (M N : Nat) : resD ic dc M N 0 0 = minTheoN M N ic dc := by
  unfold resD minTheoN
  rcases Nat.lt_trichotomy N M with h | h | h
  · rw [if_pos (by omega), if_pos h, show M + 0 - (N + 0) = M - N by omega]
  · subst h
    rw [if_pos le_rfl, if_neg (by omega), Nat.sub_self, Nat.sub_self, Nat.zero_mul,
      Nat.zero_mul]
  · rw [if_neg (by omega), if_neg (by omega), show N + 0 - (M + 0) = N - M by omega]

/-- Descending one row of the DP: any cell of row j+1, together with its
residual, dominates some cell of row j (at a column no further right)
together with its residual. -/
theorem rowDescend (M N j : Nat) : ∀ c : Nat,
    ∃ i, i ≤ c ∧ levRowF ic dc mc j i + resD ic dc M N j i ≤
      levRowF ic dc mc (j + 1) c + resD ic dc M N (j + 1) c := by
  intro c
  induction c with
  | zero =>
    refine ⟨0, le_rfl, ?_⟩
    have h1 : levRowF ic dc mc (j + 1) 0 = levRowF ic dc mc j 0 + ic := by
      rw [levRowF_succ_zero, levRowF_col_zero, Nat.succ_mul]
    have h2 := resD_up ic dc M N j 0
    omega
  | succ c ih =>
    rcases min3_attain (levRowF ic dc mc j (c + 1) + ic)
        (levRowF ic dc mc (j + 1) c + dc) (levRowF ic dc mc j c + mc c j) with h | h | h <;>
      rw [levRowF_succ_succ, h]
    · refine ⟨c + 1, le_rfl, ?_⟩
      have h2 := resD_up ic dc M N j (c + 1)
      omega
    · rcases ih with ⟨i, hi, hle⟩
      refine ⟨i, by omega, ?_⟩
      have h2 := resD_left ic dc M N (j + 1) c
      omega
    · refine ⟨c, by omega, ?_⟩
      have h2 := resD_diag ic dc M N j c
      omega

/-- Row-cut: the final distance dominates, for every row j ≤ N, some cell of
row j plus its residual.  This is the semantic justification of the window
collapse (lines 406-408): if every cell of some row exceeds the bound even
after adding its residual, so does the final distance. -/
theorem rowCut (M N : Nat) : ∀ d j : Nat, j + d = N →
    ∃ i, i ≤ M ∧ levRowF ic dc mc j i + resD ic dc M N j i ≤
      levRowF ic dc mc N M := by
  intro d
  induction d with
  | zero =>
    intro j hj
    subst hj
    rw [Nat.add_zero]
    refine ⟨M, le_rfl, ?_⟩
    rw [resD_final]
    omega
  | succ d ih =>
    intro j hj
    rcases ih (j + 1) (by omega) with ⟨i2, hi2, hle2⟩
    rcases rowDescend ic dc mc M N j i2 with ⟨i, hi, hle⟩
    exact ⟨i, by omega, by omega⟩

end Residual

section Fill

variable (mf : Nat → Bool) (ic dc sc : Nat) (prev : Nat → Nat)

theorem fillRow_lt (fuel : Nat) : ∀ (i : Nat) (curr : Nat → Nat) (k : Nat), k < i →
    fillRow mf ic dc sc prev fuel i curr k = curr k := by
  induction fuel with
  | zero =>
    intro i curr k hk
    rfl
  | succ fuel ih =>
    intro i curr k hk
    simp only [fillRow]
    rw [ih (i + 1) _ k (by omega), updateRow_other _ _ _ _ (by omega)]

theorem fillRow_ge (fuel : Nat) : ∀ (i : Nat) (curr : Nat → Nat) (k : Nat),
    i + fuel ≤ k → fillRow mf ic dc sc prev fuel i curr k = curr k := by
  induction fuel with
  | zero =>
    intro i curr k hk
    rfl
  | succ fuel ih =>
    intro i curr k hk
    simp only [fillRow]
    rw [ih (i + 1) _ k (by omega), updateRow_other _ _ _ _ (by omega)]

/-- The value the inner loop leaves at an in-range column k: the three-way
minimum over the previous row and the (final) value one column to the
left. -/
theorem fillRow_at (fuel : Nat) : ∀ (i : Nat) (curr : Nat → Nat) (k : Nat),
    1 ≤ i → i ≤ k → k < i + fuel →
    fillRow mf ic dc sc prev fuel i curr k =
      min (min (prev k + ic) (fillRow mf ic dc sc prev fuel i curr (k - 1) + dc))
        (prev (k - 1) + (if mf k then 0 else sc)) := by
  induction fuel with
  | zero =>
    intro i curr k h0 h1 h2
    omega
  | succ fuel ih =>
    intro i curr k h0 h1 h2
    simp only [fillRow]
    rcases Nat.eq_or_lt_of_le h1 with h3 | h3
    · subst h3
      rw [fillRow_lt mf ic dc sc prev fuel (i + 1) _ i (by omega),
        fillRow_lt mf ic dc sc prev fuel (i + 1) _ (i - 1) (by omega),
        updateRow_same, updateRow_other _ _ _ _ (by omega)]
    · exact ih (i + 1) _ k (by omega) (by omega) (by omega)

end Fill

section Unbounded

variable (s t : PgText) (ic dc sc : Nat)

/-- If the text is well formed and its byte length equals its character
count, every character is a single byte. -/
theorem length_le_byteLen (hwf : Wf s) : s.length ≤ byteLen s := by
  induction s with
  | nil => simp [byteLen]
  | cons c rest ih =>
    have hc : c ≠ [] := hwf c (by simp)
    have h1 : 1 ≤ c.length := by
      cases c with
      | nil => exact absurd rfl hc
      | cons b bs => simp
    have h2 := ih (fun d hd => hwf d (by simp [hd]))
    simp only [byteLen, List.map_cons, List.sum_cons, List.length_cons] at *
    omega

theorem single_byte_of_byteLen_eq (hwf : Wf s) (h : s.length = byteLen s) :
    ∀ c ∈ s, c.length = 1 := by
  induction s with
  | nil => simp
  | cons c rest ih =>
    have hc : c ≠ [] := hwf c (by simp)
    have h1 : 1 ≤ c.length := by
      cases c with
      | nil => exact absurd rfl hc
      | cons b bs => simp
    have hwr : Wf rest := fun d hd => hwf d (by simp [hd])
    have h2 := length_le_byteLen rest hwr
    simp only [byteLen, List.map_cons, List.sum_cons, List.length_cons] at h
    have hcl : c.length = 1 := by
      unfold byteLen at h2
      omega
    intro d hd
    rcases List.mem_cons.mp hd with rfl | hd2
    · exact hcl
    · refine ih hwr ?_ d hd2
      unfold byteLen at h2 ⊢
      omega

/-- Both inner-loop variants decide character equality on well-formed
in-range inputs; which one the engine runs is the dispatch of line 208. -/
theorem dispatch_match (hwfs : Wf s) (hwft : Wf t) :
    ∀ j i, 1 ≤ j → j ≤ t.length → 1 ≤ i → i ≤ s.length →
      (((if s.length = byteLen s ∧ t.length = byteLen t then fastMatch s t
          else slowMatch s t) j i) = true ↔
        s.getD (i - 1) [] = t.getD (j - 1) []) := by
  intro j i hj1 hj2 hi1 hi2
  split
  · next h =>
    have hs1 := single_byte_of_byteLen_eq s hwfs h.1
    have ht1 := single_byte_of_byteLen_eq t hwft h.2
    have hsi : i - 1 < s.length := by omega
    have hti : j - 1 < t.length := by omega
    have hmems : s.getD (i - 1) [] ∈ s := by
      rw [List.getD_eq_getElem s [] hsi]
      exact List.getElem_mem hsi
    have hmemt : t.getD (j - 1) [] ∈ t := by
      rw [List.getD_eq_getElem t [] hti]
      exact List.getElem_mem hti
    have hls := hs1 _ hmems
    have hlt := ht1 _ hmemt
    unfold fastMatch
    match hx : s.getD (i - 1) [], hy : t.getD (j - 1) [] with
    | [a], [b] =>
      simp
    | [], _ => rw [hx] at hls; simp at hls
    | _ :: _ :: _, _ => rw [hx] at hls; simp at hls
    | [a], [] => rw [hy] at hlt; simp at hlt
    | [a], _ :: _ :: _ => rw [hy] at hlt; simp at hlt
  · exact char_cmp_eq _ _

/-- One unbounded row: the filled row holds row j of the reference DP. -/
theorem rowFillU (mf : Nat → Nat → Bool)
    (hmf : ∀ j i, 1 ≤ j → j ≤ t.length → 1 ≤ i → i ≤ s.length →
      (mf j i = true ↔ s.getD (i - 1) [] = t.getD (j - 1) []))
    (j : Nat) (hj1 : 1 ≤ j) (hj2 : j ≤ t.length) (prev curr : Nat → Nat)
    (hprev : ∀ i, i ≤ s.length → prev i = levW s t ic dc sc (j - 1) i) :
    ∀ i, i ≤ s.length →
      fillRow (mf j) ic dc sc prev s.length 1 (updateRow curr 0 (j * ic)) i =
        levW s t ic dc sc j i := by
  intro i
  induction i with
  | zero =>
    intro hi
    rw [fillRow_lt (mf j) ic dc sc prev s.length 1 (updateRow curr 0 (j * ic)) 0 (by omega),
      updateRow_same]
    unfold levW
    rw [levRowF_col_zero]
  | succ i ih =>
    intro hi
    obtain ⟨j', rfl⟩ : ∃ j', j = j' + 1 := ⟨j - 1, by omega⟩
    rw [fillRow_at (mf (j' + 1)) ic dc sc prev s.length 1
      (updateRow curr 0 ((j' + 1) * ic)) (i + 1) le_rfl (by omega) (by omega)]
    have e1 : i + 1 - 1 = i := by omega
    rw [e1, ih (by omega), hprev (i + 1) hi, hprev i (by omega)]
    have e2 : j' + 1 - 1 = j' := by omega
    rw [e2]
    have e3 : (if mf (j' + 1) (i + 1) then 0 else sc) = matchCost s t sc i j' := by
      have hiff := hmf (j' + 1) (i + 1) (by omega) hj2 (by omega) hi
      have e4 : i + 1 - 1 = i := rfl
      have e5 : j' + 1 - 1 = j' := rfl
      rw [e4, e5] at hiff
      unfold matchCost
      by_cases hmatch : s.getD i [] = t.getD j' []
      · rw [if_pos hmatch, hiff.mpr hmatch]
        simp
      · have hb : mf (j' + 1) (i + 1) = false := by
          cases hb2 : mf (j' + 1) (i + 1)
          · rfl
          · exact absurd (hiff.mp hb2) hmatch
        rw [hb, if_neg hmatch]
        simp
    rw [e3]
    unfold levW
    rw [levRowF_succ_succ]

/-- The unbounded row loop carries row j-1 of the reference DP in prev. -/
theorem runRowsU_invariant (mf : Nat → Nat → Bool)
    (hmf : ∀ j i, 1 ≤ j → j ≤ t.length → 1 ≤ i → i ≤ s.length →
      (mf j i = true ↔ s.getD (i - 1) [] = t.getD (j - 1) [])) :
    ∀ (fuel j : Nat) (pc : (Nat → Nat) × (Nat → Nat)), 1 ≤ j →
      j + fuel = t.length + 1 →
      (∀ i, i ≤ s.length → pc.1 i = levW s t ic dc sc (j - 1) i) →
      ∀ i, i ≤ s.length →
        (runRowsU (rowStepU mf ic dc sc (s.length + 1)) fuel j pc).1 i =
          levW s t ic dc sc t.length i := by
  intro fuel
  induction fuel with
  | zero =>
    intro j pc hj1 hj2 hprev i hi
    have : j - 1 = t.length := by omega
    rw [runRowsU, hprev i hi, this]
  | succ fuel ih =>
    intro j pc hj1 hj2 hprev i hi
    rw [runRowsU]
    refine ih (j + 1) _ (by omega) (by omega) ?_ i hi
    intro i2 hi2
    have e : j + 1 - 1 = j := by omega
    rw [e]
    unfold rowStepU
    have e2 : s.length + 1 - 1 = s.length := by omega
    rw [e2]
    exact rowFillU s t ic dc sc mf hmf j hj1 (by omega) pc.1 pc.2 hprev i2 hi2

/-- The unbounded engine returns exactly the reference DP value for
well-formed inputs within the length limit (degenerate cases included). -/
theorem internal_eq_levW (tc : Nat) (hwfs : Wf s) (hwft : Wf t)
    (hms : s.length ≤ MAXLEN) (hnt : t.length ≤ MAXLEN) :
    dameraulevenshtein_internal s t ic dc sc tc =
      .ok (levW s t ic dc sc t.length s.length) := by
  simp only [dameraulevenshtein_internal]
  rcases Nat.eq_zero_or_pos s.length with hm | hm
  · rw [if_pos hm, hm]
    unfold levW
    rw [levRowF_col_zero]
  · rw [if_neg (by omega)]
    rcases Nat.eq_zero_or_pos t.length with hn | hn
    · rw [if_pos hn, hn]
      unfold levW
      rw [levRowF_zero]
    · rw [if_neg (by omega), if_neg (by omega)]
      refine congrArg Except.ok
        (runRowsU_invariant s t ic dc sc _ (dispatch_match s t hwfs hwft)
          t.length 1 _ le_rfl (by omega) ?_ s.length le_rfl)
      intro i hi
      simp only [initRow]
      rw [if_pos (by omega)]
      rfl

end Unbounded

section Slides

variable (md : Int) (ic dc : Nat) (zp : Int) (K : Nat)

theorem stopSlide_le (prev : Nat → Nat) : ∀ stop : Nat,
    stopSlide md ic dc zp prev stop ≤ stop := by
  intro stop
  induction stop with
  | zero => exact le_rfl
  | succ st ih =>
    simp only [stopSlide]
    split
    · exact le_rfl
    · omega

theorem stopSlide_keep (prev : Nat → Nat) (g : Nat)
    (hg : (prev g : Int) + slideCost ic dc ((g : Int) - zp) ≤ md) :
    ∀ stop : Nat, g < stop → g < stopSlide md ic dc zp prev stop := by
  intro stop
  induction stop with
  | zero => omega
  | succ st ih =>
    intro hlt
    simp only [stopSlide]
    split
    · omega
    · next hfail =>
      have : g ≠ st := by
        intro h
        subst h
        exact hfail hg
      exact ih (by omega)

theorem stopSlide_all_fail (prev : Nat → Nat) : ∀ stop : Nat,
    (∀ k, k < stop → ¬((prev k : Int) + slideCost ic dc ((k : Int) - zp) ≤ md)) →
    stopSlide md ic dc zp prev stop = 0 := by
  intro stop
  induction stop with
  | zero => intro _; rfl
  | succ st ih =>
    intro hall
    simp only [stopSlide]
    rw [if_neg (hall st (by omega))]
    exact ih (fun k hk => hall k (by omega))

theorem startSlide_start_ge : ∀ (fuel start : Nat) (prev curr : Nat → Nat),
    start ≤ (startSlide md ic dc zp K fuel start prev curr).1 := by
  intro fuel
  induction fuel with
  | zero => intro start prev curr; exact le_rfl
  | succ fuel ih =>
    intro start prev curr
    simp only [startSlide]
    split
    · exact le_rfl
    · exact le_trans (by omega) (ih (start + 1) _ _)

theorem startSlide_le_good (g : Nat) : ∀ (fuel start : Nat) (prev curr : Nat → Nat),
    start ≤ g → ((prev g : Int) + slideCost ic dc ((g : Int) - zp) ≤ md) →
    (startSlide md ic dc zp K fuel start prev curr).1 ≤ g := by
  intro fuel
  induction fuel with
  | zero => intro start prev curr h1 _; exact h1
  | succ fuel ih =>
    intro start prev curr h1 h2
    simp only [startSlide]
    split
    · exact h1
    · next hfail =>
      have hne : start ≠ g := by
        intro h
        subst h
        exact hfail h2
      refine ih (start + 1) _ _ (by omega) ?_
      rw [updateRow_other _ _ _ _ (by omega)]
      exact h2

/-- Cells at or beyond the final start column are untouched by the start
slide. -/
theorem startSlide_rows_ge : ∀ (fuel start : Nat) (prev curr : Nat → Nat) (k : Nat),
    (startSlide md ic dc zp K fuel start prev curr).1 ≤ k →
    (startSlide md ic dc zp K fuel start prev curr).2.1 k = prev k ∧
    (startSlide md ic dc zp K fuel start prev curr).2.2 k = curr k := by
  intro fuel
  induction fuel with
  | zero => intro start prev curr k _; exact ⟨rfl, rfl⟩
  | succ fuel ih =>
    intro start prev curr k hk
    by_cases hc : (prev start : Int) + slideCost ic dc ((start : Int) - zp) ≤ md
    · simp only [startSlide, if_pos hc]
      exact ⟨by trivial, by trivial⟩
    · simp only [startSlide, if_neg hc] at hk ⊢
      have hge := startSlide_start_ge md ic dc zp K fuel (start + 1)
        (updateRow prev start K) (updateRow curr start K)
      have hih := ih (start + 1) (updateRow prev start K) (updateRow curr start K) k hk
      refine ⟨?_, ?_⟩
      · rw [hih.1, updateRow_other _ _ _ _ (by omega)]
      · rw [hih.2, updateRow_other _ _ _ _ (by omega)]

/-- Cells below the initial start column are untouched by the start
slide. -/
theorem startSlide_rows_lt : ∀ (fuel start : Nat) (prev curr : Nat → Nat) (k : Nat),
    k < start →
    (startSlide md ic dc zp K fuel start prev curr).2.1 k = prev k ∧
    (startSlide md ic dc zp K fuel start prev curr).2.2 k = curr k := by
  intro fuel
  induction fuel with
  | zero => intro start prev curr k _; exact ⟨rfl, rfl⟩
  | succ fuel ih =>
    intro start prev curr k hk
    by_cases hc : (prev start : Int) + slideCost ic dc ((start : Int) - zp) ≤ md
    · simp only [startSlide, if_pos hc]
      exact ⟨by trivial, by trivial⟩
    · simp only [startSlide, if_neg hc]
      have hih := ih (start + 1) (updateRow prev start K) (updateRow curr start K) k (by omega)
      refine ⟨?_, ?_⟩
      · rw [hih.1, updateRow_other _ _ _ _ (by omega)]
      · rw [hih.2, updateRow_other _ _ _ _ (by omega)]

/-- Cells the start slide drops are set to K in both rows. -/
theorem startSlide_dropped : ∀ (fuel start : Nat) (prev curr : Nat → Nat) (k : Nat),
    start ≤ k → k < (startSlide md ic dc zp K fuel start prev curr).1 →
    (startSlide md ic dc zp K fuel start prev curr).2.1 k = K ∧
    (startSlide md ic dc zp K fuel start prev curr).2.2 k = K := by
  intro fuel
  induction fuel with
  | zero =>
    intro start prev curr k h1 h2
    simp only [startSlide] at h2
    exact absurd h2 (by omega)
  | succ fuel ih =>
    intro start prev curr k h1 h2
    by_cases hc : (prev start : Int) + slideCost ic dc ((start : Int) - zp) ≤ md
    · simp only [startSlide, if_pos hc] at h2
      exact absurd h2 (by omega)
    · simp only [startSlide, if_neg hc] at h2 ⊢
      rcases Nat.eq_or_lt_of_le h1 with h3 | h3
      · subst h3
        have hlt := startSlide_rows_lt md ic dc zp K fuel (start + 1)
          (updateRow prev start K) (updateRow curr start K) start (by omega)
        rw [hlt.1, hlt.2, updateRow_same, updateRow_same]
        exact ⟨rfl, rfl⟩
      · exact ih (start + 1) _ _ k (by omega) h2

end Slides

section Window

variable (s t : PgText) (ic dc sc mdN : Nat)

/-- A cell is "good" when its DP value plus its residual still fits under the
bound: exactly the cells the window must keep. -/
def goodCell (j i : Nat) : Prop :=
  levW s t ic dc sc j i + resD ic dc s.length t.length j i ≤ mdN

/-- The slider's integer test (value + residual ≤ max_d) agrees with the
Nat-level statement about resD. -/
theorem slide_cond_iff (v r i : Nat) :
    ((v : Int) + slideCost ic dc
        ((i : Int) - ((r : Int) - (((t.length + 1 : Nat) : Int) - ((s.length + 1 : Nat) : Int))))
      ≤ (mdN : Int)) ↔
    v + resD ic dc s.length t.length r i ≤ mdN := by
  have hnet : (i : Int) - ((r : Int) - (((t.length + 1 : Nat) : Int) - ((s.length + 1 : Nat) : Int)))
      = ((t.length : Int) + i) - ((s.length : Int) + r) := by
    push_cast
    ring
  rw [hnet]
  unfold slideCost resD
  rcases Nat.lt_or_ge (s.length + r) (t.length + i) with h | h
  · rw [if_pos (by omega : (0 : Int) < ((t.length : Int) + i) - ((s.length : Int) + r)),
      if_neg (by omega : ¬ t.length + i ≤ s.length + r)]
    have e : ((t.length : Int) + i) - ((s.length : Int) + r)
        = ((t.length + i - (s.length + r) : Nat) : Int) := by omega
    rw [e]
    constructor
    · intro h2
      exact_mod_cast h2
    · intro h2
      exact_mod_cast h2
  · rw [if_neg (by omega : ¬ (0 : Int) < ((t.length : Int) + i) - ((s.length : Int) + r)),
      if_pos (by omega : t.length + i ≤ s.length + r)]
    have e : -(((t.length : Int) + i) - ((s.length : Int) + r))
        = ((s.length + r - (t.length + i) : Nat) : Int) := by omega
    rw [e]
    constructor
    · intro h2
      exact_mod_cast h2
    · intro h2
      exact_mod_cast h2

theorem good_diag_free (j i : Nat) :
    goodCell s t ic dc sc mdN (j + 1) (i + 1) → goodCell s t ic dc sc mdN j i := by
  unfold goodCell levW
  intro h
  have h1 := lev_diag_mono ic dc (matchCost s t sc) j i
  have h2 := resD_diag ic dc s.length t.length j i
  omega

theorem good_col0 (j : Nat) :
    goodCell s t ic dc sc mdN (j + 1) 0 → goodCell s t ic dc sc mdN j 0 := by
  unfold goodCell levW
  intro h
  have h1 : levRowF ic dc (matchCost s t sc) (j + 1) 0
      = levRowF ic dc (matchCost s t sc) j 0 + ic := by
    rw [levRowF_succ_zero, levRowF_col_zero, Nat.succ_mul]
  have h2 := resD_up ic dc s.length t.length j 0
  omega

theorem good_up_attain (j i : Nat)
    (hat : levW s t ic dc sc (j + 1) i = levW s t ic dc sc j i + ic) :
    goodCell s t ic dc sc mdN (j + 1) i → goodCell s t ic dc sc mdN j i := by
  unfold goodCell
  intro h
  have h2 := resD_up ic dc s.length t.length j i
  omega

theorem good_left_attain (j i : Nat)
    (hat : levW s t ic dc sc j (i + 1) = levW s t ic dc sc j i + dc) :
    goodCell s t ic dc sc mdN j (i + 1) → goodCell s t ic dc sc mdN j i := by
  unfold goodCell
  intro h
  have h2 := resD_left ic dc s.length t.length j i
  omega

/-- If a bad cell lies weakly right of a good cell in the same row, walking
right with deletions contradicts nothing; what we need is the converse for
the final row: the final cell is bounded by any cell to its left plus
deletions. -/
theorem good_rowN_final (i : Nat) (hi : i ≤ s.length)
    (hg : goodCell s t ic dc sc mdN t.length i) :
    levW s t ic dc sc t.length s.length ≤ mdN := by
  unfold goodCell at hg
  rw [resD_rowN ic dc s.length t.length i hi] at hg
  unfold levW at *
  have h1 := lev_row_chain ic dc (matchCost s t sc) t.length i (s.length - i)
  rw [show i + (s.length - i) = s.length by omega] at h1
  omega

/-- The inner-loop match test computes the reference substitution cost. -/
theorem mf_ite_eq (mf : Nat → Nat → Bool)
    (hmf : ∀ jj ii, 1 ≤ jj → jj ≤ t.length → 1 ≤ ii → ii ≤ s.length →
      (mf jj ii = true ↔ s.getD (ii - 1) [] = t.getD (jj - 1) []))
    (r i : Nat) (hr1 : 1 ≤ r) (hr2 : r ≤ t.length) (hi1 : 1 ≤ i) (hi2 : i ≤ s.length) :
    (if mf r i then 0 else sc) = matchCost s t sc (i - 1) (r - 1) := by
  have hiff := hmf r i hr1 hr2 hi1 hi2
  unfold matchCost
  by_cases hmatch : s.getD (i - 1) [] = t.getD (r - 1) []
  · rw [if_pos hmatch, hiff.mpr hmatch]
    simp
  · have hb : mf r i = false := by
      cases hb2 : mf r i
      · rfl
      · exact absurd (hiff.mp hb2) hmatch
    rw [hb, if_neg hmatch]
    simp

/-- Arithmetic step of the window lower bound: a lower bound min K w on a
dependency cell transfers to the candidate through its edit cost. -/
theorem minK_le_addR (K v w p x : Nat) (h : min K w ≤ p) (hv : v ≤ w + x) :
    min K v ≤ p + x := by
  rcases Nat.le_total K w with hk | hk
  · rw [min_eq_left hk] at h
    exact le_trans (Nat.min_le_left K v) (le_trans h (Nat.le_add_right p x))
  · rw [min_eq_right hk] at h
    exact le_trans (Nat.min_le_right K v)
      (le_trans hv (Nat.add_le_add_right h x))

/-- Every cell the windowed inner loop computes is at least
min (max_d + 1) (true value): window clamping can only push values up to the
sentinel, never below the true DP value and the sentinel at once. -/
theorem windowFill_lb (mf : Nat → Nat → Bool)
    (hmf : ∀ jj ii, 1 ≤ jj → jj ≤ t.length → 1 ≤ ii → ii ≤ s.length →
      (mf jj ii = true ↔ s.getD (ii - 1) [] = t.getD (jj - 1) []))
    (jp : Nat) (hjN : jp + 1 ≤ t.length)
    (start stopP i0 : Nat) (prevE curr0 : Nat → Nat)
    (hi0 : i0 = if start = 0 then 1 else start)
    (hstopP : stopP ≤ s.length + 1)
    (hprevLB : ∀ i, i < stopP → min (mdN + 1) (levW s t ic dc sc jp i) ≤ prevE i)
    (hcurrK : ∀ i, i < start → curr0 i = mdN + 1)
    (hcurr0 : start = 0 → curr0 0 = (jp + 1) * ic) :
    ∀ i, i < stopP →
      min (mdN + 1) (levW s t ic dc sc (jp + 1) i) ≤
        fillRow (mf (jp + 1)) ic dc sc prevE (stopP - i0) i0 curr0 i := by
  have hi01 : 1 ≤ i0 := by
    rcases Nat.eq_zero_or_pos start with h | h
    · rw [hi0, if_pos h]
    · rw [hi0, if_neg (by omega)]
      exact h
  intro i
  induction i with
  | zero =>
    intro hlt
    rw [fillRow_lt _ _ _ _ _ _ _ _ _ (by omega)]
    rcases Nat.eq_zero_or_pos start with h | h
    · rw [hcurr0 h]
      unfold levW
      rw [levRowF_succ_zero]
      exact Nat.min_le_right _ _
    · rw [hcurrK 0 h]
      exact Nat.min_le_left _ _
  | succ ip ih =>
    intro hlt
    rcases Nat.lt_or_ge (ip + 1) i0 with hlo | hlo
    · -- below the fill range: original curr0 cell, necessarily below start
      rw [fillRow_lt _ _ _ _ _ _ _ _ _ hlo]
      have hlt2 : ip + 1 < start := by
        rcases Nat.eq_zero_or_pos start with h | h
        · rw [hi0, if_pos h] at hlo
          omega
        · rw [hi0, if_neg (by omega)] at hlo
          exact hlo
      rw [hcurrK (ip + 1) hlt2]
      exact Nat.min_le_left _ _
    · rw [fillRow_at _ _ _ _ _ _ _ _ _ hi01 hlo (by omega)]
      have e1 : ip + 1 - 1 = ip := rfl
      rw [e1]
      have hc1 : min (mdN + 1) (levW s t ic dc sc jp (ip + 1)) ≤ prevE (ip + 1) :=
        hprevLB (ip + 1) hlt
      have hc3 : min (mdN + 1) (levW s t ic dc sc jp ip) ≤ prevE ip :=
        hprevLB ip (by omega)
      have hup : levW s t ic dc sc (jp + 1) (ip + 1) ≤ levW s t ic dc sc jp (ip + 1) + ic := by
        unfold levW
        exact lev_le_up ic dc (matchCost s t sc) jp (ip + 1)
      have hleft : levW s t ic dc sc (jp + 1) (ip + 1) ≤ levW s t ic dc sc (jp + 1) ip + dc := by
        unfold levW
        exact lev_le_left ic dc (matchCost s t sc) (jp + 1) ip
      have hdiag : levW s t ic dc sc (jp + 1) (ip + 1) ≤
          levW s t ic dc sc jp ip + matchCost s t sc ip jp := by
        unfold levW
        exact lev_le_diag ic dc (matchCost s t sc) jp ip
      have hmc : (if mf (jp + 1) (ip + 1) then 0 else sc) = matchCost s t sc ip jp := by
        have := mf_ite_eq s t sc mf hmf (jp + 1) (ip + 1) (by omega) hjN (by omega) (by omega)
        simpa using this
      rw [hmc]
      -- the left dependency: either computed (ih) or a curr0 cell
      have hipval : min (mdN + 1) (levW s t ic dc sc (jp + 1) ip) ≤
          fillRow (mf (jp + 1)) ic dc sc prevE (stopP - i0) i0 curr0 ip := by
        rcases Nat.lt_or_ge ip i0 with hip | hip
        · rw [fillRow_lt _ _ _ _ _ _ _ _ _ hip]
          rcases Nat.eq_zero_or_pos start with h | h
          · have hip0 : ip = 0 := by
              rw [hi0, if_pos h] at hip
              omega
            subst hip0
            rw [hcurr0 h]
            unfold levW
            rw [levRowF_succ_zero]
            exact Nat.min_le_right _ _
          · have hlt3 : ip < start := by
              rw [hi0, if_neg (by omega)] at hip
              exact hip
            rw [hcurrK ip hlt3]
            exact Nat.min_le_left _ _
        · exact ih (by omega)
      exact Nat.le_min.mpr ⟨Nat.le_min.mpr
        ⟨minK_le_addR _ _ _ _ _ hc1 hup, minK_le_addR _ _ _ _ _ hipval hleft⟩,
        minK_le_addR _ _ _ _ _ hc3 hdiag⟩

/-- Every good cell of the next row is computed by the windowed inner loop,
lies inside the fill range, and receives its exact DP value. -/
theorem windowFill_exact (mf : Nat → Nat → Bool)
    (hmf : ∀ jj ii, 1 ≤ jj → jj ≤ t.length → 1 ≤ ii → ii ≤ s.length →
      (mf jj ii = true ↔ s.getD (ii - 1) [] = t.getD (jj - 1) []))
    (jp : Nat) (hjN : jp + 1 ≤ t.length)
    (start stop stopP i0 : Nat) (prevE curr0 : Nat → Nat)
    (hi0 : i0 = if start = 0 then 1 else start)
    (hstop_le : stop ≤ s.length + 1)
    (hstop_pos : 0 < stop)
    (hstopP : stopP = if stop < s.length + 1 then stop + 1 else stop)
    (hprevEx : ∀ i, i ≤ s.length → goodCell s t ic dc sc mdN jp i →
      start ≤ i ∧ i < stop ∧ prevE i = levW s t ic dc sc jp i)
    (hprevLB : ∀ i, i < stopP → min (mdN + 1) (levW s t ic dc sc jp i) ≤ prevE i)
    (hcurrK : ∀ i, i < start → curr0 i = mdN + 1)
    (hcurr0 : start = 0 → curr0 0 = (jp + 1) * ic) :
    ∀ i, i ≤ s.length → goodCell s t ic dc sc mdN (jp + 1) i →
      start ≤ i ∧ i < stopP ∧
      fillRow (mf (jp + 1)) ic dc sc prevE (stopP - i0) i0 curr0 i =
        levW s t ic dc sc (jp + 1) i := by
  have hi01 : 1 ≤ i0 := by
    rcases Nat.eq_zero_or_pos start with h | h
    · rw [hi0, if_pos h]
    · rw [hi0, if_neg (by omega)]
      exact h
  have hstopP_le : stopP ≤ s.length + 1 := by
    rw [hstopP]
    split <;> omega
  intro i
  induction i with
  | zero =>
    intro hiM hgood
    have hg0 : goodCell s t ic dc sc mdN jp 0 := good_col0 s t ic dc sc mdN jp hgood
    have hx := hprevEx 0 (by omega) hg0
    have hstart0 : start = 0 := by omega
    refine ⟨by omega, by rw [hstopP]; split <;> omega, ?_⟩
    rw [fillRow_lt _ _ _ _ _ _ _ _ _ (by omega), hcurr0 hstart0]
    unfold levW
    rw [levRowF_succ_zero]
  | succ ip ih =>
    intro hiM hgood
    have hgp : goodCell s t ic dc sc mdN jp ip := good_diag_free s t ic dc sc mdN jp ip hgood
    have hx := hprevEx ip (by omega) hgp
    have hlt : ip + 1 < stopP := by
      rw [hstopP]
      split <;> omega
    have hge_i0 : i0 ≤ ip + 1 := by
      rw [hi0]
      split <;> omega
    refine ⟨by omega, hlt, ?_⟩
    have hlb : levW s t ic dc sc (jp + 1) (ip + 1) ≤
        fillRow (mf (jp + 1)) ic dc sc prevE (stopP - i0) i0 curr0 (ip + 1) := by
      have h1 := windowFill_lb s t ic dc sc mdN mf hmf jp hjN start stopP i0 prevE curr0
        hi0 hstopP_le hprevLB hcurrK hcurr0 (ip + 1) hlt
      have h2 : levW s t ic dc sc (jp + 1) (ip + 1) ≤ mdN := by
        unfold goodCell at hgood
        omega
      rw [min_eq_right (by omega)] at h1
      exact h1
    have hmc : (if mf (jp + 1) (ip + 1) then 0 else sc) = matchCost s t sc ip jp := by
      have := mf_ite_eq s t sc mf hmf (jp + 1) (ip + 1) (by omega) hjN (by omega) (by omega)
      simpa using this
    have heq : levW s t ic dc sc (jp + 1) (ip + 1) =
        min (min (levW s t ic dc sc jp (ip + 1) + ic) (levW s t ic dc sc (jp + 1) ip + dc))
          (levW s t ic dc sc jp ip + matchCost s t sc ip jp) := by
      unfold levW
      rw [levRowF_succ_succ]
    have hub : fillRow (mf (jp + 1)) ic dc sc prevE (stopP - i0) i0 curr0 (ip + 1) ≤
        levW s t ic dc sc (jp + 1) (ip + 1) := by
      rw [fillRow_at _ _ _ _ _ _ _ _ _ hi01 hge_i0 (by omega)]
      have e1 : ip + 1 - 1 = ip := rfl
      rw [e1, hmc]
      rcases min3_attain (levW s t ic dc sc jp (ip + 1) + ic)
          (levW s t ic dc sc (jp + 1) ip + dc)
          (levW s t ic dc sc jp ip + matchCost s t sc ip jp) with h | h | h
      · have hat : levW s t ic dc sc (jp + 1) (ip + 1) =
            levW s t ic dc sc jp (ip + 1) + ic := heq.trans h
        have hgup : goodCell s t ic dc sc mdN jp (ip + 1) :=
          good_up_attain s t ic dc sc mdN jp (ip + 1) hat hgood
        have hxup := hprevEx (ip + 1) hiM hgup
        exact le_of_le_of_eq (le_trans (Nat.min_le_left _ _) (Nat.min_le_left _ _))
          (by rw [hxup.2.2, ← hat])
      · have hat : levW s t ic dc sc (jp + 1) (ip + 1) =
            levW s t ic dc sc (jp + 1) ip + dc := heq.trans h
        have hgl : goodCell s t ic dc sc mdN (jp + 1) ip :=
          good_left_attain s t ic dc sc mdN (jp + 1) ip hat hgood
        have hih := ih (by omega) hgl
        exact le_of_le_of_eq (le_trans (Nat.min_le_left _ _) (Nat.min_le_right _ _))
          (by rw [hih.2.2, ← hat])
      · have hat : levW s t ic dc sc (jp + 1) (ip + 1) =
            levW s t ic dc sc jp ip + matchCost s t sc ip jp := heq.trans h
        exact le_of_le_of_eq (Nat.min_le_right _ _) (by rw [hx.2.2, ← hat])
    exact le_antisymm hub hlb

/-- The previous row extended at the advancing stop column keeps the window
lower bound at every column of the extended range. -/
theorem step_prevLB (st : LoopSt) (jp : Nat) (prevE : Nat → Nat) (stopP : Nat)
    (hprevE : (if st.stop < s.length + 1 then updateRow st.prev st.stop (mdN + 1)
      else st.prev) = prevE)
    (hstopPeq : (if st.stop < s.length + 1 then st.stop + 1 else st.stop) = stopP)
    (hB : ∀ i, i < st.start → st.prev i = mdN + 1 ∧ st.curr i = mdN + 1)
    (hW : ∀ i, st.start ≤ i → i < st.stop →
      min (mdN + 1) (levW s t ic dc sc jp i) ≤ st.prev i) :
    ∀ i, i < stopP → min (mdN + 1) (levW s t ic dc sc jp i) ≤ prevE i := by
  intro i hi
  rw [← hprevE]
  by_cases hse : st.stop < s.length + 1
  · rw [if_pos hse]
    by_cases hie : i = st.stop
    · subst hie
      rw [updateRow_same]
      exact Nat.min_le_left _ _
    · rw [updateRow_other _ _ _ _ hie]
      have hilt : i < st.stop := by
        rw [← hstopPeq, if_pos hse] at hi
        omega
      rcases Nat.lt_or_ge i st.start with hlo | hlo
      · rw [(hB i hlo).1]
        exact Nat.min_le_left _ _
      · exact hW i hlo hilt
  · rw [if_neg hse]
    have hilt : i < st.stop := by
      rw [← hstopPeq, if_neg hse] at hi
      omega
    rcases Nat.lt_or_ge i st.start with hlo | hlo
    · rw [(hB i hlo).1]
      exact Nat.min_le_left _ _
    · exact hW i hlo hilt

/-- The stop-column write never touches a good cell, so exactness carries
over to the extended previous row. -/
theorem step_prevEx (st : LoopSt) (jp : Nat) (prevE : Nat → Nat)
    (hprevE : (if st.stop < s.length + 1 then updateRow st.prev st.stop (mdN + 1)
      else st.prev) = prevE)
    (hU : ∀ i, i ≤ s.length → goodCell s t ic dc sc mdN jp i →
      st.start ≤ i ∧ i < st.stop ∧ st.prev i = levW s t ic dc sc jp i) :
    ∀ i, i ≤ s.length → goodCell s t ic dc sc mdN jp i →
      st.start ≤ i ∧ i < st.stop ∧ prevE i = levW s t ic dc sc jp i := by
  intro i hiM hg
  rcases hU i hiM hg with ⟨hx1, hx2, hx3⟩
  refine ⟨hx1, hx2, ?_⟩
  rw [← hprevE]
  by_cases hse : st.stop < s.length + 1
  · rw [if_pos hse, updateRow_other _ _ _ _ (by omega)]
    exact hx3
  · rw [if_neg hse]
    exact hx3

/-- Good cells of the freshly filled row survive both window slides. -/
theorem step_keep (jp : Nat) (start stopP stop2 : Nat) (F prevE : Nat → Nat)
    (zpE : Int)
    (SS : Nat × (Nat → Nat) × (Nat → Nat))
    (hSS : startSlide (mdN : Int) ic dc zpE (mdN + 1) (stop2 - start) start F prevE
      = SS)
    (hstop2 : stopSlide (mdN : Int) ic dc zpE F stopP = stop2)
    (hcond_iff : ∀ v i : Nat,
      (((v : Nat) : Int) + slideCost ic dc ((i : Int) - zpE) ≤ (mdN : Int)) ↔
        v + resD ic dc s.length t.length (jp + 1) i ≤ mdN)
    (hfillEx : ∀ i, i ≤ s.length → goodCell s t ic dc sc mdN (jp + 1) i →
      start ≤ i ∧ i < stopP ∧ F i = levW s t ic dc sc (jp + 1) i) :
    ∀ g, g ≤ s.length → goodCell s t ic dc sc mdN (jp + 1) g →
      SS.1 ≤ g ∧ g < stop2 := by
  intro g hgM hg
  rcases hfillEx g hgM hg with ⟨hg1, hg2, hg3⟩
  have hcondg : ((F g : Int) + slideCost ic dc ((g : Int) - zpE) ≤ (mdN : Int)) := by
    rw [hcond_iff (F g) g, hg3]
    unfold goodCell at hg
    exact hg
  constructor
  · rw [← hSS]
    exact startSlide_le_good (mdN : Int) ic dc zpE (mdN + 1) g (stop2 - start)
      start F prevE hg1 hcondg
  · rw [← hstop2]
    exact stopSlide_keep (mdN : Int) ic dc zpE F g hcondg stopP hg2

/-- If no cell of the filled row is good, the stop slide runs to zero. -/
theorem step_collapse (jp : Nat) (stopP : Nat) (F : Nat → Nat) (zpE : Int)
    (hcond_iff : ∀ v i : Nat,
      (((v : Nat) : Int) + slideCost ic dc ((i : Int) - zpE) ≤ (mdN : Int)) ↔
        v + resD ic dc s.length t.length (jp + 1) i ≤ mdN)
    (hstopP_le : stopP ≤ s.length + 1)
    (hfillLB : ∀ i, i < stopP → min (mdN + 1) (levW s t ic dc sc (jp + 1) i) ≤ F i)
    (hng : ∀ i, i ≤ s.length → ¬ goodCell s t ic dc sc mdN (jp + 1) i) :
    stopSlide (mdN : Int) ic dc zpE F stopP = 0 := by
  refine stopSlide_all_fail (mdN : Int) ic dc zpE F stopP ?_
  intro k hk hcondk
  have hkM : k ≤ s.length := by omega
  have hlbk := hfillLB k hk
  rw [hcond_iff (F k) k] at hcondk
  rcases Nat.le_total (mdN + 1) (levW s t ic dc sc (jp + 1) k) with hmm | hmm
  · rw [min_eq_left hmm] at hlbk
    exact absurd hcondk (by omega)
  · rw [min_eq_right hmm] at hlbk
    exact hng k hkM (by unfold goodCell; omega)

/-- Full specification of one bounded row iteration in windowed mode
(md = mdN ≥ 0): either the window collapses, the step returns max_d + 1, and
no cell of the new row is good; or the step produces a state in which the
window invariants hold for the new row. -/
theorem lessEqualRowStep_spec (mf : Nat → Nat → Bool)
    (hmf : ∀ jj ii, 1 ≤ jj → jj ≤ t.length → 1 ≤ ii → ii ≤ s.length →
      (mf jj ii = true ↔ s.getD (ii - 1) [] = t.getD (jj - 1) []))
    (j : Nat) (hj1 : 1 ≤ j) (hj2 : j ≤ t.length) (st : LoopSt)
    (hA : st.start < st.stop) (hA2 : st.stop ≤ s.length + 1)
    (hB : ∀ i, i < st.start → st.prev i = mdN + 1 ∧ st.curr i = mdN + 1)
    (hW : ∀ i, st.start ≤ i → i < st.stop →
      min (mdN + 1) (levW s t ic dc sc (j - 1) i) ≤ st.prev i)
    (hU : ∀ i, i ≤ s.length → goodCell s t ic dc sc mdN (j - 1) i →
      st.start ≤ i ∧ i < st.stop ∧ st.prev i = levW s t ic dc sc (j - 1) i) :
    (lessEqualRowStep mf ic dc sc (mdN : Int) (s.length + 1) (t.length + 1) j st
        = .inl (mdN + 1)
      ∧ ∀ i, i ≤ s.length → ¬ goodCell s t ic dc sc mdN j i)
    ∨ (∃ st2 : LoopSt,
        lessEqualRowStep mf ic dc sc (mdN : Int) (s.length + 1) (t.length + 1) j st
          = .inr st2
        ∧ st2.start < st2.stop ∧ st2.stop ≤ s.length + 1
        ∧ (∀ i, i < st2.start → st2.prev i = mdN + 1 ∧ st2.curr i = mdN + 1)
        ∧ (∀ i, st2.start ≤ i → i < st2.stop →
            min (mdN + 1) (levW s t ic dc sc j i) ≤ st2.prev i)
        ∧ (∀ i, i ≤ s.length → goodCell s t ic dc sc mdN j i →
            st2.start ≤ i ∧ i < st2.stop ∧ st2.prev i = levW s t ic dc sc j i)
        ∧ (∃ g, g ≤ s.length ∧ goodCell s t ic dc sc mdN j g)) := by
  obtain ⟨jp, rfl⟩ : ∃ jp, j = jp + 1 := ⟨j - 1, by omega⟩
  have h0 : (0 : Int) ≤ (mdN : Int) := by exact_mod_cast Nat.zero_le mdN
  have hK : ((mdN : Int) + 1).toNat = mdN + 1 := by omega
  have e1 : jp + 1 - 1 = jp := rfl
  rw [e1] at hW hU
  -- name the intermediate rows and columns of the step
  obtain ⟨prevE, hprevE⟩ : ∃ x,
    (if st.stop < s.length + 1 then updateRow st.prev st.stop (mdN + 1) else st.prev) = x :=
    ⟨_, rfl⟩
  obtain ⟨stopP, hstopPeq⟩ : ∃ x,
    (if st.stop < s.length + 1 then st.stop + 1 else st.stop) = x := ⟨_, rfl⟩
  obtain ⟨curr0, hcurr0eq⟩ : ∃ x,
    (if st.start = 0 then updateRow st.curr 0 ((jp + 1) * ic) else st.curr) = x := ⟨_, rfl⟩
  obtain ⟨i0, hi0eq⟩ : ∃ x, (if st.start = 0 then 1 else st.start) = x := ⟨_, rfl⟩
  obtain ⟨F, hFeq⟩ : ∃ x,
    fillRow (mf (jp + 1)) ic dc sc prevE (stopP - i0) i0 curr0 = x := ⟨_, rfl⟩
  obtain ⟨zpE, hzpE⟩ : ∃ x, ((jp + 1 : Nat) : Int) -
      (((t.length + 1 : Nat) : Int) - ((s.length + 1 : Nat) : Int)) = x := ⟨_, rfl⟩
  obtain ⟨stop2, hstop2⟩ : ∃ x, stopSlide (mdN : Int) ic dc zpE F stopP = x := ⟨_, rfl⟩
  obtain ⟨SS, hSS⟩ : ∃ x,
    startSlide (mdN : Int) ic dc zpE (mdN + 1) (stop2 - st.start) st.start F prevE = x :=
    ⟨_, rfl⟩
  have hstep : lessEqualRowStep mf ic dc sc (mdN : Int) (s.length + 1) (t.length + 1)
      (jp + 1) st =
      (if stop2 ≤ SS.1 then Sum.inl (mdN + 1)
        else Sum.inr ⟨SS.2.1, SS.2.2, SS.1, stop2⟩) := by
    simp only [lessEqualRowStep]
    rw [hK, if_pos h0, hprevE, hstopPeq, hcurr0eq, hi0eq, hFeq, hzpE, hstop2, hSS]
  -- basic facts about the pieces
  have hstopP_ge : st.stop ≤ stopP := by
    rw [← hstopPeq]
    split <;> omega
  have hstopP_le : stopP ≤ s.length + 1 := by
    rw [← hstopPeq]
    split <;> omega
  have hstopPif : stopP = if st.stop < s.length + 1 then st.stop + 1 else st.stop := hstopPeq.symm
  have hi0if : i0 = if st.start = 0 then 1 else st.start := hi0eq.symm
  have hcond_iff : ∀ v i : Nat,
      (((v : Nat) : Int) + slideCost ic dc ((i : Int) - zpE) ≤ (mdN : Int)) ↔
        v + resD ic dc s.length t.length (jp + 1) i ≤ mdN := by
    intro v i
    rw [← hzpE]
    exact slide_cond_iff s t ic dc mdN v (jp + 1) i
  -- hypotheses for the fill lemmas
  have hprevLB : ∀ i, i < stopP → min (mdN + 1) (levW s t ic dc sc jp i) ≤ prevE i :=
    step_prevLB s t ic dc sc mdN st jp prevE stopP hprevE hstopPeq hB hW
  have hprevEx : ∀ i, i ≤ s.length → goodCell s t ic dc sc mdN jp i →
      st.start ≤ i ∧ i < st.stop ∧ prevE i = levW s t ic dc sc jp i :=
    step_prevEx s t ic dc sc mdN st jp prevE hprevE hU
  have hcurrK : ∀ i, i < st.start → curr0 i = mdN + 1 := by
    intro i hi
    rw [← hcurr0eq, if_neg (by omega)]
    exact (hB i hi).2
  have hcurr00 : st.start = 0 → curr0 0 = (jp + 1) * ic := by
    intro h
    rw [← hcurr0eq, if_pos h, updateRow_same]
  -- fill facts
  have hfillLB : ∀ i, i < stopP → min (mdN + 1) (levW s t ic dc sc (jp + 1) i) ≤ F i := by
    intro i hi
    rw [← hFeq]
    exact windowFill_lb s t ic dc sc mdN mf hmf jp hj2 st.start stopP i0 prevE curr0
      hi0if hstopP_le hprevLB hcurrK hcurr00 i hi
  have hfillEx : ∀ i, i ≤ s.length → goodCell s t ic dc sc mdN (jp + 1) i →
      st.start ≤ i ∧ i < stopP ∧ F i = levW s t ic dc sc (jp + 1) i := by
    intro i hiM hg
    rw [← hFeq]
    exact windowFill_exact s t ic dc sc mdN mf hmf jp hj2 st.start st.stop stopP i0
      prevE curr0 hi0if hA2 (by omega) hstopPif hprevEx hprevLB hcurrK hcurr00 i hiM hg
  have hfillK : ∀ i, i < st.start → F i = mdN + 1 := by
    intro i hi
    have hii0 : i < i0 := by
      rw [← hi0eq]
      split <;> omega
    rw [← hFeq, fillRow_lt _ _ _ _ _ _ _ _ _ hii0]
    exact hcurrK i hi
  -- good cells survive both slides
  have hkeep : ∀ g, g ≤ s.length → goodCell s t ic dc sc mdN (jp + 1) g →
      SS.1 ≤ g ∧ g < stop2 :=
    step_keep s t ic dc sc mdN jp st.start stopP stop2 F prevE zpE SS hSS hstop2
      hcond_iff hfillEx
  -- if no cell of the new row is good the stop column slides to zero
  have hcollapse_of_nogood :
      (∀ i, i ≤ s.length → ¬ goodCell s t ic dc sc mdN (jp + 1) i) → stop2 = 0 := by
    intro hng
    rw [← hstop2]
    exact step_collapse s t ic dc sc mdN jp stopP F zpE hcond_iff hstopP_le hfillLB hng
  by_cases hcol : stop2 ≤ SS.1
  · left
    rw [hstep, if_pos hcol]
    refine ⟨rfl, ?_⟩
    intro i hiM hg
    rcases hkeep i hiM hg with ⟨hk1, hk2⟩
    omega
  · right
    refine ⟨⟨SS.2.1, SS.2.2, SS.1, stop2⟩, by rw [hstep, if_neg hcol], ?_, ?_, ?_, ?_, ?_, ?_⟩
    · show SS.1 < stop2
      omega
    · show stop2 ≤ s.length + 1
      have := stopSlide_le (mdN : Int) ic dc zpE F stopP
      rw [hstop2] at this
      omega
    · -- dropped cells are the sentinel in both rows
      show ∀ i, i < SS.1 → SS.2.1 i = mdN + 1 ∧ SS.2.2 i = mdN + 1
      intro i hi
      rcases Nat.lt_or_ge i st.start with hlo | hlo
      · have hh := startSlide_rows_lt (mdN : Int) ic dc zpE (mdN + 1) (stop2 - st.start)
          st.start F prevE i hlo
        rw [hSS] at hh
        refine ⟨?_, ?_⟩
        · rw [hh.1]
          exact hfillK i hlo
        · rw [hh.2, ← hprevE]
          by_cases hse : st.stop < s.length + 1
          · rw [if_pos hse, updateRow_other _ _ _ _ (by omega)]
            exact (hB i hlo).1
          · rw [if_neg hse]
            exact (hB i hlo).1
      · have hh := startSlide_dropped (mdN : Int) ic dc zpE (mdN + 1) (stop2 - st.start)
          st.start F prevE i hlo (by rw [hSS]; exact hi)
        rw [hSS] at hh
        exact hh
    · -- lower bound inside the new window
      show ∀ i, SS.1 ≤ i → i < stop2 →
        min (mdN + 1) (levW s t ic dc sc (jp + 1) i) ≤ SS.2.1 i
      intro i hi1 hi2
      have hh := startSlide_rows_ge (mdN : Int) ic dc zpE (mdN + 1) (stop2 - st.start)
        st.start F prevE i (by rw [hSS]; exact hi1)
      rw [hSS] at hh
      rw [hh.1]
      have hstople := stopSlide_le (mdN : Int) ic dc zpE F stopP
      rw [hstop2] at hstople
      exact hfillLB i (by omega)
    · -- good cells of the new row: in window, exact
      show ∀ i, i ≤ s.length → goodCell s t ic dc sc mdN (jp + 1) i →
        SS.1 ≤ i ∧ i < stop2 ∧ SS.2.1 i = levW s t ic dc sc (jp + 1) i
      intro i hiM hg
      rcases hkeep i hiM hg with ⟨hk1, hk2⟩
      rcases hfillEx i hiM hg with ⟨_, _, hex⟩
      refine ⟨hk1, hk2, ?_⟩
      have hh := startSlide_rows_ge (mdN : Int) ic dc zpE (mdN + 1) (stop2 - st.start)
        st.start F prevE i (by rw [hSS]; exact hk1)
      rw [hSS] at hh
      rw [hh.1]
      exact hex
    · -- a good cell exists (otherwise the window would have collapsed)
      by_contra hng
      push_neg at hng
      have : stop2 = 0 := hcollapse_of_nogood (fun i hi hgi => hng i hi hgi)
      omega

/-- Running the bounded row loop from a state satisfying the window
invariants: either some row's window collapses, the loop returns max_d + 1,
and the true distance exceeds the bound, or the loop finishes with the final
row's good cells held exactly. -/
theorem runRows_spec (mf : Nat → Nat → Bool)
    (hmf : ∀ jj ii, 1 ≤ jj → jj ≤ t.length → 1 ≤ ii → ii ≤ s.length →
      (mf jj ii = true ↔ s.getD (ii - 1) [] = t.getD (jj - 1) [])) :
    ∀ (fuel j : Nat) (st : LoopSt), 1 ≤ j → j + fuel = t.length + 1 →
    st.start < st.stop → st.stop ≤ s.length + 1 →
    (∀ i, i < st.start → st.prev i = mdN + 1 ∧ st.curr i = mdN + 1) →
    (∀ i, st.start ≤ i → i < st.stop →
      min (mdN + 1) (levW s t ic dc sc (j - 1) i) ≤ st.prev i) →
    (∀ i, i ≤ s.length → goodCell s t ic dc sc mdN (j - 1) i →
      st.start ≤ i ∧ i < st.stop ∧ st.prev i = levW s t ic dc sc (j - 1) i) →
    (∃ g, g ≤ s.length ∧ goodCell s t ic dc sc mdN (j - 1) g) →
    (runRows (lessEqualRowStep mf ic dc sc (mdN : Int) (s.length + 1) (t.length + 1))
        fuel j st = .inl (mdN + 1)
      ∧ mdN < levW s t ic dc sc t.length s.length)
    ∨ (∃ st2 : LoopSt,
        runRows (lessEqualRowStep mf ic dc sc (mdN : Int) (s.length + 1) (t.length + 1))
          fuel j st = .inr st2
        ∧ (∀ i, i ≤ s.length → goodCell s t ic dc sc mdN t.length i →
            st2.prev i = levW s t ic dc sc t.length i)
        ∧ (∃ g, g ≤ s.length ∧ goodCell s t ic dc sc mdN t.length g)) := by
  intro fuel
  induction fuel with
  | zero =>
    intro j st hj1 hjf hA hA2 hB hW hU hG
    have hjN : j - 1 = t.length := by omega
    rw [hjN] at hU hG
    right
    exact ⟨st, rfl, fun i hi hg => (hU i hi hg).2.2, hG⟩
  | succ fuel ih =>
    intro j st hj1 hjf hA hA2 hB hW hU hG
    have hjle : j ≤ t.length := by omega
    rcases lessEqualRowStep_spec s t ic dc sc mdN mf hmf j hj1 hjle st hA hA2 hB hW hU with
      ⟨hstep, hng⟩ | ⟨st2, hstep, hA', hA2', hB', hW', hU', hG'⟩
    · left
      constructor
      · rw [runRows, hstep]
      · rcases rowCut ic dc (matchCost s t sc) s.length t.length (t.length - j) j
          (by omega) with ⟨i, hiM, hcut⟩
        have hbad := hng i hiM
        unfold goodCell levW at hbad
        unfold levW
        omega
    · have hrec := ih (j + 1) st2 (by omega) (by omega) hA' hA2' hB'
        (by rw [show j + 1 - 1 = j from rfl]; exact hW')
        (by rw [show j + 1 - 1 = j from rfl]; exact hU')
        (by rw [show j + 1 - 1 = j from rfl]; exact hG')
      rw [runRows, hstep]
      exact hrec

end Window

section TheoBounds

variable (ic dc sc : Nat) (mc : Nat → Nat → Nat)

/-- A diagonal step costs at most min (substitute, insert + delete) when the
per-cell cost is bounded by the substitution cost. -/
theorem lev_diag_capped (hmc : ∀ i j, mc i j ≤ sc) (j i : Nat) :
    levRowF ic dc mc (j + 1) (i + 1) ≤ levRowF ic dc mc j i + min sc (ic + dc) := by
  have h1 := lev_le_diag ic dc mc j i
  have h2 : levRowF ic dc mc (j + 1) (i + 1) ≤ levRowF ic dc mc j i + (ic + dc) := by
    have h3 := lev_le_left ic dc mc (j + 1) i
    have h4 := lev_le_up ic dc mc j i
    omega
  have h5 := hmc i j
  omega

/-- Every cell is bounded by its forced net cost plus a capped substitution
for every aligned pair. -/
theorem lev_le_capped (hmc : ∀ i j, mc i j ≤ sc) (j : Nat) : ∀ i : Nat,
    levRowF ic dc mc j i ≤ netCost ic dc j i + min sc (ic + dc) * min i j := by
  induction j with
  | zero =>
    intro i
    rw [levRowF_zero]
    unfold netCost
    cases i with
    | zero => simp
    | succ i =>
      rw [if_neg (by omega)]
      simp
  | succ j ih =>
    intro i
    cases i with
    | zero =>
      rw [levRowF_succ_zero]
      unfold netCost
      rw [if_pos (by omega)]
      simp
    | succ i =>
      have h1 := lev_diag_capped ic dc sc mc hmc j i
      have h2 := ih i
      have h3 := netCost_diag ic dc j i
      have h4 : min (i + 1) (j + 1) = min i j + 1 := by omega
      rw [h4, Nat.mul_succ]
      omega

theorem netCost_eq_minTheo (m n : Nat) : netCost ic dc n m = minTheoN m n ic dc := by
  unfold netCost minTheoN
  rcases Nat.lt_trichotomy n m with h | h | h
  · rw [if_neg (by omega), if_pos h]
  · subst h
    rw [if_pos le_rfl, if_neg (by omega)]
  · rw [if_pos (by omega), if_neg (by omega)]

/-- The true distance is at least the theoretical minimum of lines
165-168. -/
theorem levW_ge_minTheo (s t : PgText) :
    minTheoN s.length t.length ic dc ≤ levW s t ic dc sc t.length s.length := by
  have h1 := lev_ge_netCost ic dc (matchCost s t sc) t.length s.length
  rw [netCost_eq_minTheo ic dc s.length t.length] at h1
  unfold levW
  exact h1

/-- The true distance is at most the theoretical maximum of lines
171-173. -/
theorem levW_le_maxTheo (s t : PgText) :
    levW s t ic dc sc t.length s.length ≤ maxTheoN s.length t.length ic dc sc := by
  have h1 := lev_le_capped ic dc sc (matchCost s t sc)
    (fun i j => by unfold matchCost; split <;> omega) t.length s.length
  rw [netCost_eq_minTheo ic dc s.length t.length] at h1
  unfold levW maxTheoN
  have h2 : min s.length t.length = min s.length t.length := rfl
  omega

end TheoBounds

section Setup

variable (s t : PgText) (ic dc sc mdN : Nat)

/-- Every good cell of row 0 lies below the initial stop column computed by
lines 176-196. -/
theorem stop0_covers (hic : 0 < ic + dc)
    (hmin : minTheoN s.length t.length ic dc ≤ mdN) :
    ∀ i, i ≤ s.length → goodCell s t ic dc sc mdN 0 i →
      i < (if t.length < s.length then s.length - t.length else 0) +
        (mdN - minTheoN s.length t.length ic dc) / (ic + dc) + 1 := by
  intro i hiM hg
  unfold goodCell levW at hg
  rw [levRowF_zero] at hg
  unfold resD at hg
  by_cases hnm : t.length < s.length
  · -- shrinking string: best column is m - n
    rw [if_pos hnm]
    unfold minTheoN at hmin ⊢
    rw [if_pos hnm] at hmin ⊢
    obtain ⟨q, hq⟩ : ∃ q, (mdN - (s.length - t.length) * dc) / (ic + dc) = q := ⟨_, rfl⟩
    rw [hq]
    rcases Nat.lt_or_ge (s.length - t.length) i with hgt | hle
    · -- i beyond the best column
      rw [if_neg (by clear hq hmin; omega)] at hg
      have e1 : t.length + i - (s.length + 0) = i - (s.length - t.length) := by
        clear hq hmin hg
        omega
      rw [e1] at hg
      have e2 : (i - (s.length - t.length)) * dc + (s.length - t.length) * dc = i * dc := by
        rw [← Nat.add_mul, Nat.sub_add_cancel (by clear hq hmin hg; omega)]
      have e3 : (i - (s.length - t.length)) * (ic + dc) =
          (i - (s.length - t.length)) * ic + (i - (s.length - t.length)) * dc := by
        rw [Nat.mul_add]
      have hdiv : i - (s.length - t.length) ≤ q := by
        rw [← hq, Nat.le_div_iff_mul_le hic]
        clear hq hmin hiM
        omega
      clear hq hmin hg e2 e3 hic hiM
      omega
    · clear hq hmin hg hic
      omega
  · -- growing or equal: best column is 0
    rw [if_neg hnm]
    unfold minTheoN at hmin ⊢
    rw [if_neg hnm] at hmin ⊢
    obtain ⟨q, hq⟩ : ∃ q, (mdN - (t.length - s.length) * ic) / (ic + dc) = q := ⟨_, rfl⟩
    rw [hq]
    by_cases hz : t.length + i ≤ s.length + 0
    · have hi0 : i = 0 := by
        clear hq hmin hg
        omega
      clear hq hmin hg hic hz
      omega
    · rw [if_neg hz] at hg
      have e1 : t.length + i - (s.length + 0) = (t.length - s.length) + i := by
        clear hq hmin hg
        omega
      rw [e1, Nat.add_mul] at hg
      have hdiv : i ≤ q := by
        rw [← hq, Nat.le_div_iff_mul_le hic]
        have e3 : i * (ic + dc) = i * ic + i * dc := by rw [Nat.mul_add]
        clear hq hmin hiM hz
        omega
      clear hq hmin hg hic hz hiM
      omega

theorem boundSetup_reject (m n : Nat) (max_d : Int) (h0 : 0 ≤ max_d)
    (h : max_d < (minTheoN m n ic dc : Int)) :
    boundSetup m n ic dc sc max_d = .reject := by
  simp only [boundSetup]
  rw [if_pos h0, if_pos h]

theorem boundSetup_disabled (m n : Nat) (max_d : Int) (h0 : 0 ≤ max_d)
    (h1 : ¬ max_d < (minTheoN m n ic dc : Int))
    (h2 : (maxTheoN m n ic dc sc : Int) ≤ max_d) :
    boundSetup m n ic dc sc max_d = .run (-1) (m + 1) := by
  simp only [boundSetup]
  rw [if_pos h0, if_neg h1, if_pos h2]

theorem boundSetup_window (m n : Nat) (max_d : Int) (h0 : 0 ≤ max_d)
    (h1 : ¬ max_d < (minTheoN m n ic dc : Int))
    (h2 : ¬ (maxTheoN m n ic dc sc : Int) ≤ max_d) (h3 : 0 < ic + dc) :
    boundSetup m n ic dc sc max_d = .run max_d
      (if m < (if n < m then m - n else 0) +
          (max_d.toNat - minTheoN m n ic dc) / (ic + dc) + 1
        then m + 1
        else (if n < m then m - n else 0) +
          (max_d.toNat - minTheoN m n ic dc) / (ic + dc) + 1) := by
  simp only [boundSetup]
  rw [if_pos h0, if_neg h1, if_neg h2, if_pos h3]

theorem boundSetup_window_zero (m n : Nat) (max_d : Int) (h0 : 0 ≤ max_d)
    (h1 : ¬ max_d < (minTheoN m n ic dc : Int))
    (h2 : ¬ (maxTheoN m n ic dc sc : Int) ≤ max_d) (h3 : ¬ 0 < ic + dc) :
    boundSetup m n ic dc sc max_d = .run max_d (m + 1) := by
  simp only [boundSetup]
  rw [if_pos h0, if_neg h1, if_neg h2, if_neg h3]

theorem boundSetup_unbounded (m n : Nat) (max_d : Int) (h0 : ¬ 0 ≤ max_d) :
    boundSetup m n ic dc sc max_d = .run max_d (m + 1) := by
  simp only [boundSetup]
  rw [if_neg h0]

/-- With windowing disabled (max_d = -1) the bounded row step coincides with
the unbounded row step: the edge write is dead (the stop column already
covers the whole row), curr[0] is always special-cased, and the slider is
skipped. -/
theorem lessEqualRowStep_disabled (mf : Nat → Nat → Bool) (m1 n1 j : Nat)
    (prev curr : Nat → Nat) :
    lessEqualRowStep mf ic dc sc (-1) m1 n1 j ⟨prev, curr, 0, m1⟩ =
      .inr ⟨(rowStepU mf ic dc sc m1 j (prev, curr)).1, prev, 0, m1⟩ := by
  have h1 : ¬ (m1 < m1) := lt_irrefl m1
  have h2 : ¬ ((0 : Int) ≤ -1) := by decide
  simp only [lessEqualRowStep, rowStepU, if_neg h1, if_neg h2]
  simp

theorem runRows_disabled (mf : Nat → Nat → Bool) (m1 n1 : Nat) :
    ∀ (fuel j : Nat) (prev curr : Nat → Nat),
    runRows (lessEqualRowStep mf ic dc sc (-1) m1 n1) fuel j ⟨prev, curr, 0, m1⟩ =
      .inr ⟨(runRowsU (rowStepU mf ic dc sc m1) fuel j (prev, curr)).1,
            (runRowsU (rowStepU mf ic dc sc m1) fuel j (prev, curr)).2, 0, m1⟩ := by
  intro fuel
  induction fuel with
  | zero =>
    intro j prev curr
    rfl
  | succ fuel ih =>
    intro j prev curr
    rw [runRows, lessEqualRowStep_disabled]
    rw [runRowsU]
    exact ih (j + 1) _ _

end Setup

section Main

variable (s t : PgText) (ic dc sc : Nat)

/-- Master theorem for the bounded engine on nonempty well-formed in-limit
inputs with a nonnegative bound: it returns exactly
min (true distance, max_d + 1). -/
theorem lessEqual_eq_min (tc : Nat) (max_d : Int)
    (hwfs : Wf s) (hwft : Wf t) (hs0 : s ≠ []) (ht0 : t ≠ [])
    (hms : s.length ≤ MAXLEN) (hnt : t.length ≤ MAXLEN) (hmd : 0 ≤ max_d) :
    dameraulevenshtein_less_equal_internal s t ic dc sc tc max_d =
      .ok (min (levW s t ic dc sc t.length s.length) (max_d.toNat + 1)) := by
  have hm0 : ¬ (s.length = 0) := fun h => hs0 (List.length_eq_zero.mp h)
  have hn0 : ¬ (t.length = 0) := fun h => ht0 (List.length_eq_zero.mp h)
  obtain ⟨dN, rfl⟩ : ∃ dN : Nat, max_d = (dN : Int) := ⟨max_d.toNat, by omega⟩
  have htn : ((dN : Int)).toNat = dN := by omega
  rw [htn]
  simp only [dameraulevenshtein_less_equal_internal]
  rw [if_neg hm0, if_neg hn0,
    if_neg (by omega : ¬ (MAXLEN < s.length ∨ MAXLEN < t.length))]
  by_cases hrej : (dN : Int) < (minTheoN s.length t.length ic dc : Int)
  · rw [boundSetup_reject ic dc sc _ _ _ (by omega) hrej]
    have h1 := levW_ge_minTheo ic dc sc s t
    rw [min_eq_right (show dN + 1 ≤ levW s t ic dc sc t.length s.length by omega)]
    show Except.ok (((dN : Int) + 1).toNat) = Except.ok (dN + 1)
    rw [show (((dN : Int) + 1).toNat) = dN + 1 by omega]
  · by_cases hdis : (maxTheoN s.length t.length ic dc sc : Int) ≤ (dN : Int)
    · rw [boundSetup_disabled ic dc sc _ _ _ (by omega) hrej hdis]
      have h1 := levW_le_maxTheo ic dc sc s t
      rw [min_eq_left (show levW s t ic dc sc t.length s.length ≤ dN + 1 by omega)]
      simp only [lessEqualRun]
      rw [runRows_disabled ic dc sc _ _ _ t.length 1 (initRow dc (s.length + 1))
        (fun _ => 0)]
      simp only [lessEqualFinish]
      refine congrArg Except.ok ?_
      refine runRowsU_invariant s t ic dc sc _ (dispatch_match s t hwfs hwft)
        t.length 1 _ le_rfl (by omega) ?_ s.length le_rfl
      intro i hi
      simp only [initRow]
      rw [if_pos (by omega)]
      rfl
    · by_cases hzero : 0 < ic + dc
      · rw [boundSetup_window ic dc sc _ _ _ (by omega) hrej hdis hzero]
        rw [htn]
        simp only [lessEqualRun]
        have hminle : minTheoN s.length t.length ic dc ≤ dN := by omega
        obtain ⟨Q, hQ⟩ : ∃ q,
            (dN - minTheoN s.length t.length ic dc) / (ic + dc) = q := ⟨_, rfl⟩
        rw [hQ]
        obtain ⟨B, hB⟩ : ∃ b,
            (if t.length < s.length then s.length - t.length else 0) = b := ⟨_, rfl⟩
        rw [hB]
        obtain ⟨stop0E, hstop0⟩ : ∃ x,
            (if s.length < B + Q + 1 then s.length + 1 else B + Q + 1) = x := ⟨_, rfl⟩
        rw [hstop0]
        have hstop0_pos : 0 < stop0E := by
          rw [← hstop0]
          split <;> omega
        have hstop0_le : stop0E ≤ s.length + 1 := by
          rw [← hstop0]
          split <;> omega
        have hgood00 : goodCell s t ic dc sc dN 0 0 := by
          unfold goodCell levW
          rw [levRowF_zero, resD_origin]
          omega
        have hcover : ∀ i, i ≤ s.length → goodCell s t ic dc sc dN 0 i → i < stop0E := by
          intro i hiM hg
          rw [← hstop0]
          split
          · omega
          · next hcap =>
            have := stop0_covers s t ic dc sc dN hzero hminle i hiM hg
            rw [hQ, hB] at this
            exact this
        rcases runRows_spec s t ic dc sc dN _ (dispatch_match s t hwfs hwft)
            t.length 1 ⟨initRow dc stop0E, fun _ => 0, 0, stop0E⟩ le_rfl (by omega)
            hstop0_pos hstop0_le
            (by intro i hi; exact absurd (show i < 0 from hi) (by omega))
            (by
              intro i hi1 hi2
              have hi2a : i < stop0E := hi2
              show min (dN + 1) (levW s t ic dc sc 0 i) ≤ initRow dc stop0E i
              simp only [initRow]
              rw [if_pos (by omega)]
              unfold levW
              rw [levRowF_zero]
              exact Nat.min_le_right _ _)
            (by
              intro i hiM hg
              have hga : goodCell s t ic dc sc dN 0 i := hg
              refine ⟨Nat.zero_le i, show i < stop0E from hcover i hiM hga, ?_⟩
              show initRow dc stop0E i = levW s t ic dc sc 0 i
              simp only [initRow]
              rw [if_pos (hcover i hiM hga)]
              unfold levW
              rw [levRowF_zero])
            ⟨0, Nat.zero_le _, hgood00⟩ with
          ⟨hrun, hgt⟩ | ⟨st2, hrun, hU2, hg2⟩
        · rw [hrun]
          simp only [lessEqualFinish]
          rw [min_eq_right
            (show dN + 1 ≤ levW s t ic dc sc t.length s.length by omega)]
        · rw [hrun]
          simp only [lessEqualFinish]
          rcases Nat.lt_or_ge dN (levW s t ic dc sc t.length s.length) with hbig | hsmall
          · rcases hg2 with ⟨g, hgM, hgg⟩
            have := good_rowN_final s t ic dc sc dN g hgM hgg
            omega
          · have hgNM : goodCell s t ic dc sc dN t.length s.length := by
              unfold goodCell
              rw [resD_final]
              omega
            have hval := hU2 s.length le_rfl hgNM
            rw [hval]
            rw [min_eq_left
              (show levW s t ic dc sc t.length s.length ≤ dN + 1 by omega)]
      · exfalso
        have hmin0 : min sc (ic + dc) = 0 := by
          rw [show ic + dc = 0 by omega]
          exact Nat.min_zero sc
        have hmt : maxTheoN s.length t.length ic dc sc =
            minTheoN s.length t.length ic dc := by
          unfold maxTheoN
          rw [hmin0, Nat.zero_mul, Nat.add_zero]
        rw [hmt] at hdis
        exact hdis (by omega)

end Main

/-! Adequacy: the DP value is the minimum total penalty over edit scripts
built from single-character insert, delete and substitute operations. -/

/-- Edit scripts consuming both sequences from the front: keep a matching
character for free, substitute at sub_c, delete a source character at del_c,
insert a target character at ins_c.  `Edits ic dc sc xs ys k` holds iff some
such script transforms xs into ys with total penalty k. -/
inductive Edits (ic dc sc : Nat) : PgText → PgText → Nat → Prop where
  | nil : Edits ic dc sc [] [] 0
  | keep (c : PgChar) {xs ys : PgText} {k : Nat} :
      Edits ic dc sc xs ys k → Edits ic dc sc (c :: xs) (c :: ys) k
  | subst (a b : PgChar) {xs ys : PgText} {k : Nat} :
      Edits ic dc sc xs ys k → Edits ic dc sc (a :: xs) (b :: ys) (k + sc)
  | del (a : PgChar) {xs ys : PgText} {k : Nat} :
      Edits ic dc sc xs ys k → Edits ic dc sc (a :: xs) ys (k + dc)
  | ins (b : PgChar) {xs ys : PgText} {k : Nat} :
      Edits ic dc sc xs ys k → Edits ic dc sc xs (b :: ys) (k + ic)

/-- The same scripts processed from the back; convenient for the DP, which
extends prefixes on the right. -/
inductive EditsR (ic dc sc : Nat) : PgText → PgText → Nat → Prop where
  | nil : EditsR ic dc sc [] [] 0
  | keep (c : PgChar) {xs ys : PgText} {k : Nat} :
      EditsR ic dc sc xs ys k → EditsR ic dc sc (xs ++ [c]) (ys ++ [c]) k
  | subst (a b : PgChar) {xs ys : PgText} {k : Nat} :
      EditsR ic dc sc xs ys k → EditsR ic dc sc (xs ++ [a]) (ys ++ [b]) (k + sc)
  | del (a : PgChar) {xs ys : PgText} {k : Nat} :
      EditsR ic dc sc xs ys k → EditsR ic dc sc (xs ++ [a]) ys (k + dc)
  | ins (b : PgChar) {xs ys : PgText} {k : Nat} :
      EditsR ic dc sc xs ys k → EditsR ic dc sc xs (ys ++ [b]) (k + ic)

section AdequacyConv

variable {ic dc sc : Nat}

theorem Edits.snoc_keep (c : PgChar) {xs ys : PgText} {k : Nat}
    (h : Edits ic dc sc xs ys k) : Edits ic dc sc (xs ++ [c]) (ys ++ [c]) k := by
  induction h with
  | nil => simpa using Edits.keep c Edits.nil
  | keep d h ih => simpa [Nat.add_right_comm] using Edits.keep d ih
  | subst a b h ih => simpa using Edits.subst a b ih
  | del a h ih => simpa using Edits.del a ih
  | ins b h ih => simpa using Edits.ins b ih

theorem Edits.snoc_subst (a b : PgChar) {xs ys : PgText} {k : Nat}
    (h : Edits ic dc sc xs ys k) : Edits ic dc sc (xs ++ [a]) (ys ++ [b]) (k + sc) := by
  induction h with
  | nil => simpa using Edits.subst a b Edits.nil
  | keep d h ih => simpa [Nat.add_right_comm] using Edits.keep d ih
  | subst x y h ih => simpa [Nat.add_right_comm] using Edits.subst x y ih
  | del x h ih => simpa [Nat.add_right_comm] using Edits.del x ih
  | ins y h ih => simpa [Nat.add_right_comm] using Edits.ins y ih

theorem Edits.snoc_del (a : PgChar) {xs ys : PgText} {k : Nat}
    (h : Edits ic dc sc xs ys k) : Edits ic dc sc (xs ++ [a]) ys (k + dc) := by
  induction h with
  | nil => simpa using Edits.del a Edits.nil
  | keep d h ih => simpa [Nat.add_right_comm] using Edits.keep d ih
  | subst x y h ih => simpa [Nat.add_right_comm] using Edits.subst x y ih
  | del x h ih => simpa [Nat.add_right_comm] using Edits.del x ih
  | ins y h ih => simpa [Nat.add_right_comm] using Edits.ins y ih

theorem Edits.snoc_ins (b : PgChar) {xs ys : PgText} {k : Nat}
    (h : Edits ic dc sc xs ys k) : Edits ic dc sc xs (ys ++ [b]) (k + ic) := by
  induction h with
  | nil => simpa using Edits.ins b Edits.nil
  | keep d h ih => simpa [Nat.add_right_comm] using Edits.keep d ih
  | subst x y h ih => simpa [Nat.add_right_comm] using Edits.subst x y ih
  | del x h ih => simpa [Nat.add_right_comm] using Edits.del x ih
  | ins y h ih => simpa [Nat.add_right_comm] using Edits.ins y ih

theorem EditsR.toEdits {xs ys : PgText} {k : Nat} (h : EditsR ic dc sc xs ys k) :
    Edits ic dc sc xs ys k := by
  induction h with
  | nil => exact Edits.nil
  | keep c h ih => exact ih.snoc_keep c
  | subst a b h ih => exact ih.snoc_subst a b
  | del a h ih => exact ih.snoc_del a
  | ins b h ih => exact ih.snoc_ins b

theorem EditsR.cons_keep (c : PgChar) {xs ys : PgText} {k : Nat}
    (h : EditsR ic dc sc xs ys k) : EditsR ic dc sc (c :: xs) (c :: ys) k := by
  induction h with
  | nil => simpa using EditsR.keep c EditsR.nil
  | keep d h ih =>
    have := EditsR.keep d ih
    simpa [List.cons_append, Nat.add_right_comm] using this
  | subst x y h ih =>
    have := EditsR.subst x y ih
    simpa [List.cons_append, Nat.add_right_comm] using this
  | del x h ih =>
    have := EditsR.del x ih
    simpa [List.cons_append, Nat.add_right_comm] using this
  | ins y h ih =>
    have := EditsR.ins y ih
    simpa [List.cons_append, Nat.add_right_comm] using this

theorem EditsR.cons_subst (a b : PgChar) {xs ys : PgText} {k : Nat}
    (h : EditsR ic dc sc xs ys k) : EditsR ic dc sc (a :: xs) (b :: ys) (k + sc) := by
  induction h with
  | nil => simpa using EditsR.subst a b EditsR.nil
  | keep d h ih =>
    have := EditsR.keep d ih
    simpa [List.cons_append, Nat.add_right_comm] using this
  | subst x y h ih =>
    have := EditsR.subst x y ih
    simpa [List.cons_append, Nat.add_right_comm] using this
  | del x h ih =>
    have := EditsR.del x ih
    simpa [List.cons_append, Nat.add_right_comm] using this
  | ins y h ih =>
    have := EditsR.ins y ih
    simpa [List.cons_append, Nat.add_right_comm] using this

theorem EditsR.cons_del (a : PgChar) {xs ys : PgText} {k : Nat}
    (h : EditsR ic dc sc xs ys k) : EditsR ic dc sc (a :: xs) ys (k + dc) := by
  induction h with
  | nil => simpa using EditsR.del a EditsR.nil
  | keep d h ih =>
    have := EditsR.keep d ih
    simpa [List.cons_append, Nat.add_right_comm] using this
  | subst x y h ih =>
    have := EditsR.subst x y ih
    simpa [List.cons_append, Nat.add_right_comm] using this
  | del x h ih =>
    have := EditsR.del x ih
    simpa [List.cons_append, Nat.add_right_comm] using this
  | ins y h ih =>
    have := EditsR.ins y ih
    simpa [List.cons_append, Nat.add_right_comm] using this

theorem EditsR.cons_ins (b : PgChar) {xs ys : PgText} {k : Nat}
    (h : EditsR ic dc sc xs ys k) : EditsR ic dc sc xs (b :: ys) (k + ic) := by
  induction h with
  | nil => simpa using EditsR.ins b EditsR.nil
  | keep d h ih =>
    have := EditsR.keep d ih
    simpa [List.cons_append, Nat.add_right_comm] using this
  | subst x y h ih =>
    have := EditsR.subst x y ih
    simpa [List.cons_append, Nat.add_right_comm] using this
  | del x h ih =>
    have := EditsR.del x ih
    simpa [List.cons_append, Nat.add_right_comm] using this
  | ins y h ih =>
    have := EditsR.ins y ih
    simpa [List.cons_append, Nat.add_right_comm] using this

theorem Edits.toEditsR {xs ys : PgText} {k : Nat} (h : Edits ic dc sc xs ys k) :
    EditsR ic dc sc xs ys k := by
  induction h with
  | nil => exact EditsR.nil
  | keep c h ih => exact ih.cons_keep c
  | subst a b h ih => exact ih.cons_subst a b
  | del a h ih => exact ih.cons_del a
  | ins b h ih => exact ih.cons_ins b

/-- Swapping the two sequences swaps the roles of insertion and deletion. -/
theorem Edits.swap {xs ys : PgText} {k : Nat} (h : Edits ic dc sc xs ys k) :
    Edits dc ic sc ys xs k := by
  induction h with
  | nil => exact Edits.nil
  | keep c h ih => exact Edits.keep c ih
  | subst a b h ih => exact Edits.subst b a ih
  | del a h ih => exact Edits.ins a ih
  | ins b h ih => exact Edits.del b ih

end AdequacyConv

section Dist

variable (ic dc sc : Nat)

/-- The DP consults the cost function only strictly below the cell. -/
theorem levRowF_congr (mc1 mc2 : Nat → Nat → Nat) : ∀ j i,
    (∀ i2 j2, i2 < i → j2 < j → mc1 i2 j2 = mc2 i2 j2) →
    levRowF ic dc mc1 j i = levRowF ic dc mc2 j i := by
  intro j
  induction j with
  | zero =>
    intro i _
    rw [levRowF_zero, levRowF_zero]
  | succ j ihj =>
    intro i
    induction i with
    | zero =>
      intro _
      rw [levRowF_succ_zero, levRowF_succ_zero]
    | succ i ihi =>
      intro h
      rw [levRowF_succ_succ, levRowF_succ_succ,
        ihj (i + 1) (fun a b ha hb => h a b ha (by omega)),
        ihi (fun a b ha hb => h a b (by omega) hb),
        ihj i (fun a b ha hb => h a b (by omega) (by omega)),
        h i j (by omega) (by omega)]

theorem getD_append_lt {α : Type} (d : α) : ∀ (l l2 : List α) (n : Nat),
    n < l.length → (l ++ l2).getD n d = l.getD n d := by
  intro l
  induction l with
  | nil =>
    intro l2 n h
    simp at h
  | cons a l ih =>
    intro l2 n h
    cases n with
    | zero => rfl
    | succ n =>
      simp only [List.cons_append, List.getD_cons_succ]
      exact ih l2 n (by simpa using h)

theorem getD_append_len {α : Type} (d : α) : ∀ (l : List α) (a : α),
    (l ++ [a]).getD l.length d = a := by
  intro l
  induction l with
  | nil => intro a; rfl
  | cons b l ih =>
    intro a
    simp only [List.cons_append, List.length_cons, List.getD_cons_succ]
    exact ih a

/-- The distance between two whole sequences, as computed by the DP. -/
def distFull (xs ys : PgText) : Nat := levW xs ys ic dc sc ys.length xs.length

theorem distFull_nil_right (xs : PgText) : distFull ic dc sc xs [] = xs.length * dc := by
  unfold distFull levW
  simp only [List.length_nil]
  rw [levRowF_zero]

theorem distFull_nil_left (ys : PgText) : distFull ic dc sc [] ys = ys.length * ic := by
  unfold distFull levW
  simp only [List.length_nil]
  rw [levRowF_col_zero]

theorem matchCost_snoc_left (xs ys : PgText) (a : PgChar) (i j : Nat)
    (hi : i < xs.length) :
    matchCost (xs ++ [a]) ys sc i j = matchCost xs ys sc i j := by
  unfold matchCost
  rw [getD_append_lt [] xs [a] i hi]

theorem matchCost_snoc_right (xs ys : PgText) (b : PgChar) (i j : Nat)
    (hj : j < ys.length) :
    matchCost xs (ys ++ [b]) sc i j = matchCost xs ys sc i j := by
  unfold matchCost
  rw [getD_append_lt [] ys [b] j hj]

theorem distFull_snoc_left_le (xs ys : PgText) (a : PgChar) :
    distFull ic dc sc (xs ++ [a]) ys ≤ distFull ic dc sc xs ys + dc := by
  unfold distFull levW
  simp only [List.length_append, List.length_cons, List.length_nil, Nat.zero_add]
  have h := lev_le_left ic dc (matchCost (xs ++ [a]) ys sc) ys.length xs.length
  have h2 : levRowF ic dc (matchCost (xs ++ [a]) ys sc) ys.length xs.length =
      levRowF ic dc (matchCost xs ys sc) ys.length xs.length :=
    levRowF_congr ic dc _ _ ys.length xs.length
      (fun i2 j2 hi2 _ => matchCost_snoc_left sc xs ys a i2 j2 hi2)
  omega

theorem distFull_snoc_right_le (xs ys : PgText) (b : PgChar) :
    distFull ic dc sc xs (ys ++ [b]) ≤ distFull ic dc sc xs ys + ic := by
  unfold distFull levW
  simp only [List.length_append, List.length_cons, List.length_nil, Nat.zero_add]
  have h := lev_le_up ic dc (matchCost xs (ys ++ [b]) sc) ys.length xs.length
  have h2 : levRowF ic dc (matchCost xs (ys ++ [b]) sc) ys.length xs.length =
      levRowF ic dc (matchCost xs ys sc) ys.length xs.length :=
    levRowF_congr ic dc _ _ ys.length xs.length
      (fun i2 j2 _ hj2 => matchCost_snoc_right sc xs ys b i2 j2 hj2)
  omega

/-- The snoc-recurrence for the full distance. -/
theorem distFull_snoc_snoc (xs ys : PgText) (a b : PgChar) :
    distFull ic dc sc (xs ++ [a]) (ys ++ [b]) =
      min (min (distFull ic dc sc (xs ++ [a]) ys + ic)
          (distFull ic dc sc xs (ys ++ [b]) + dc))
        (distFull ic dc sc xs ys + (if a = b then 0 else sc)) := by
  unfold distFull levW
  simp only [List.length_append, List.length_cons, List.length_nil, Nat.zero_add]
  rw [levRowF_succ_succ]
  congr 1
  · congr 1
    · congr 1
      exact levRowF_congr ic dc _ _ ys.length (xs.length + 1)
        (fun i2 j2 _ hj2 => matchCost_snoc_right sc (xs ++ [a]) ys b i2 j2 hj2)
    · congr 1
      exact levRowF_congr ic dc _ _ (ys.length + 1) xs.length
        (fun i2 j2 hi2 _ => matchCost_snoc_left sc xs (ys ++ [b]) a i2 j2 hi2)
  · congr 1
    · exact levRowF_congr ic dc _ _ ys.length xs.length
        (fun i2 j2 hi2 hj2 => by
          rw [matchCost_snoc_left sc xs (ys ++ [b]) a i2 j2 hi2,
            matchCost_snoc_right sc xs ys b i2 j2 hj2])
    · unfold matchCost
      rw [getD_append_len, getD_append_len]

theorem distFull_snoc_diag_le (xs ys : PgText) (a b : PgChar) :
    distFull ic dc sc (xs ++ [a]) (ys ++ [b]) ≤
      distFull ic dc sc xs ys + (if a = b then 0 else sc) := by
  rw [distFull_snoc_snoc]
  exact Nat.min_le_right _ _

/-- Lower bound: no edit script beats the DP. -/
theorem editsR_ge_distFull {xs ys : PgText} {k : Nat}
    (h : EditsR ic dc sc xs ys k) : distFull ic dc sc xs ys ≤ k := by
  induction h with
  | nil =>
    rw [distFull_nil_left]
    simp
  | @keep c xs2 ys2 k2 h ih =>
    have h1 := distFull_snoc_diag_le ic dc sc xs2 ys2 c c
    rw [if_pos rfl] at h1
    omega
  | @subst a b xs2 ys2 k2 h ih =>
    have h1 := distFull_snoc_diag_le ic dc sc xs2 ys2 a b
    have h2 : (if a = b then 0 else sc) ≤ sc := by split <;> omega
    omega
  | @del a xs2 ys2 k2 h ih =>
    have h1 := distFull_snoc_left_le ic dc sc xs2 ys2 a
    omega
  | @ins b xs2 ys2 k2 h ih =>
    have h1 := distFull_snoc_right_le ic dc sc xs2 ys2 b
    omega

/-- Achievability: some edit script attains the DP value. -/
theorem distFull_achievable : ∀ xs ys : PgText,
    EditsR ic dc sc xs ys (distFull ic dc sc xs ys) := by
  intro xs
  induction xs using List.reverseRecOn with
  | nil =>
    intro ys
    induction ys using List.reverseRecOn with
    | nil =>
      rw [distFull_nil_left]
      simpa using EditsR.nil
    | append_singleton ys b ih =>
      rw [distFull_nil_left]
      rw [distFull_nil_left] at ih
      have := EditsR.ins b ih
      simpa [Nat.succ_mul] using this
  | append_singleton xs a ihx =>
    intro ys
    induction ys using List.reverseRecOn with
    | nil =>
      rw [distFull_nil_right]
      have h1 := ihx []
      rw [distFull_nil_right] at h1
      have := EditsR.del a h1
      simpa [Nat.succ_mul] using this
    | append_singleton ys b ihy =>
      rw [distFull_snoc_snoc]
      rcases min3_attain (distFull ic dc sc (xs ++ [a]) ys + ic)
          (distFull ic dc sc xs (ys ++ [b]) + dc)
          (distFull ic dc sc xs ys + (if a = b then 0 else sc)) with h | h | h <;> rw [h]
      · exact EditsR.ins b ihy
      · exact EditsR.del a (ihx (ys ++ [b]))
      · by_cases hab : a = b
        · rw [if_pos hab]
          subst hab
          simpa using EditsR.keep a (ihx ys)
        · rw [if_neg hab]
          exact EditsR.subst a b (ihx ys)

end Dist

/-! The three-row engine dameraulevenshtein_internal_noncompatible
(lines 421-536): classic Damerau-Levenshtein with an adjacent-transposition
term, three rolling rows, no windowing, no length check.  It indexes raw
bytes (string1[i]), so its inputs are modelled as the byte sequences
themselves (for the single-byte text it is written for, the character count
equals the byte count). -/

/-- One cell of the three-row recurrence, exactly as the sequence of
conditional improvements at lines 507-521 computes it: start from the
substitution cost, then try the transposition, the deletion and the
insertion in turn. -/
def dl3Cell (s t : List Nat) (ic dc sc tc : Nat) (row0 row1 : Nat → Nat)
    (i : Nat) : Nat → Nat
  | 0 => (i + 1) * dc
  | j + 1 =>
    let v1 := row1 j + (if s.getD i 0 = t.getD j 0 then 0 else sc)
    let v2 := if 0 < i ∧ 0 < j ∧ s.getD (i - 1) 0 = t.getD j 0 ∧
        s.getD i 0 = t.getD (j - 1) 0 ∧ row0 (j - 1) + tc < v1
      then row0 (j - 1) + tc else v1
    let v3 := if row1 (j + 1) + dc < v2 then row1 (j + 1) + dc else v2
    if dl3Cell s t ic dc sc tc row0 row1 i j + ic < v3
      then dl3Cell s t ic dc sc tc row0 row1 i j + ic else v3

/-- The inner loop of lines 507-521: fill row2 at columns j+1..j+fuel. -/
def d3inner (s t : List Nat) (ic dc sc tc : Nat) (i : Nat)
    (row0 row1 : Nat → Nat) : Nat → Nat → (Nat → Nat) → (Nat → Nat)
  | 0, _, row2 => row2
  | fuel + 1, j, row2 =>
    let v1 := row1 j + (if s.getD i 0 = t.getD j 0 then 0 else sc)
    let v2 := if 0 < i ∧ 0 < j ∧ s.getD (i - 1) 0 = t.getD j 0 ∧
        s.getD i 0 = t.getD (j - 1) 0 ∧ row0 (j - 1) + tc < v1
      then row0 (j - 1) + tc else v1
    let v3 := if row1 (j + 1) + dc < v2 then row1 (j + 1) + dc else v2
    let v4 := if row2 j + ic < v3 then row2 j + ic else v3
    d3inner s t ic dc sc tc i row0 row1 fuel (j + 1) (updateRow row2 (j + 1) v4)

/-- The outer loop of lines 503-527, rotating the three rows. -/
def d3loop (s t : List Nat) (ic dc sc tc : Nat) :
    Nat → Nat → ((Nat → Nat) × (Nat → Nat) × (Nat → Nat)) →
    ((Nat → Nat) × (Nat → Nat) × (Nat → Nat))
  | 0, _, rows => rows
  | fuel + 1, i, rows =>
    let row2b := d3inner s t ic dc sc tc i rows.1 rows.2.1 t.length 0
      (updateRow rows.2.2 0 ((i + 1) * dc))
    d3loop s t ic dc sc tc fuel (i + 1) (rows.2.1, row2b, rows.1)

/-- The three-row engine (lines 465-535).  Returns row1[len2] after the last
rotation. -/
def dameraulevenshtein_internal_noncompatible (s t : List Nat)
    (ic dc sc tc : Nat) : Nat :=
  let row1 := fun j => if j ≤ t.length then j * ic else 0
  let r := d3loop s t ic dc sc tc s.length 0 (fun _ => 0, row1, fun _ => 0)
  r.2.1 t.length

/-- Reference DP for the three-row engine: the pair of rows (i-1, i). -/
def dl3P (s t : List Nat) (ic dc sc tc : Nat) : Nat → ((Nat → Nat) × (Nat → Nat))
  | 0 => (fun _ => 0, fun j => j * ic)
  | i + 1 =>
    ((dl3P s t ic dc sc tc i).2,
      dl3Cell s t ic dc sc tc (dl3P s t ic dc sc tc i).1 (dl3P s t ic dc sc tc i).2 i)

/-- The conceptual Damerau-Levenshtein matrix cell (i, j): distance between
the first i bytes of s and the first j bytes of t. -/
def DL3 (s t : List Nat) (ic dc sc tc : Nat) (i j : Nat) : Nat :=
  (dl3P s t ic dc sc tc i).2 j

/-- dl3Cell only reads row1 at columns up to the cell index and row0 (when
0 < i) just below it, so rows that agree on columns ≤ n give equal cells. -/
theorem dl3Cell_congr (s t : List Nat) (ic dc sc tc : Nat)
    (row0 row1 row0b row1b : Nat → Nat) (i : Nat)
    (h0 : 0 < i → ∀ j2, j2 ≤ t.length → row0 j2 = row0b j2)
    (h1 : ∀ j2, j2 ≤ t.length → row1 j2 = row1b j2) :
    ∀ j, j ≤ t.length →
      dl3Cell s t ic dc sc tc row0 row1 i j = dl3Cell s t ic dc sc tc row0b row1b i j := by
  intro j
  induction j with
  | zero => intro _; rfl
  | succ j ih =>
    intro hj
    have hj1 : j ≤ t.length := by omega
    simp only [dl3Cell]
    rw [ih hj1, h1 j hj1, h1 (j + 1) hj]
    by_cases hi : 0 < i
    · rw [h0 hi (j - 1) (by omega)]
    · have hi0 : i = 0 := by omega
      subst hi0
      simp only [Nat.lt_irrefl, false_and, if_false]

/-- Correctness of the inner loop: it fills cells of the three-row
recurrence column by column. -/
theorem d3inner_spec (s t : List Nat) (ic dc sc tc : Nat) (i : Nat)
    (row0 row1 : Nat → Nat) :
    ∀ fuel j row2, j + fuel = t.length →
    (∀ j2, j2 ≤ j → row2 j2 = dl3Cell s t ic dc sc tc row0 row1 i j2) →
    ∀ j2, j2 ≤ t.length →
      d3inner s t ic dc sc tc i row0 row1 fuel j row2 j2 =
        dl3Cell s t ic dc sc tc row0 row1 i j2
  | 0, j, row2, hfj, hrow, j2, hj2 => by
    simp only [d3inner]
    exact hrow j2 (by omega)
  | fuel + 1, j, row2, hfj, hrow, j2, hj2 => by
    simp only [d3inner]
    refine d3inner_spec s t ic dc sc tc i row0 row1 fuel (j + 1) _ (by omega) ?_ j2 hj2
    intro j3 hj3
    rcases Nat.lt_or_ge j3 (j + 1) with h | h
    · rw [updateRow_other _ _ _ _ (by omega), hrow j3 (by omega)]
    · have hj3e : j3 = j + 1 := by omega
      subst hj3e
      rw [updateRow_same]
      conv_rhs => rw [dl3Cell]
      rw [hrow j (by omega)]

/-- Correctness of the outer loop: after all remaining rotations, the row1
slot holds the last row of the reference DP. -/
theorem d3loop_spec (s t : List Nat) (ic dc sc tc : Nat) :
    ∀ fuel i rows, i + fuel = s.length →
    (∀ j, j ≤ t.length → rows.2.1 j = (dl3P s t ic dc sc tc i).2 j) →
    (0 < i → ∀ j, j ≤ t.length → rows.1 j = (dl3P s t ic dc sc tc i).1 j) →
    ∀ j, j ≤ t.length →
      (d3loop s t ic dc sc tc fuel i rows).2.1 j =
        (dl3P s t ic dc sc tc s.length).2 j
  | 0, i, rows, hfi, h1, h0, j, hj => by
    simp only [d3loop]
    have hi : i = s.length := by omega
    rw [h1 j hj, hi]
  | fuel + 1, i, rows, hfi, h1, h0, j, hj => by
    simp only [d3loop]
    refine d3loop_spec s t ic dc sc tc fuel (i + 1) _ (by omega) ?_ ?_ j hj
    · intro j2 hj2
      show d3inner s t ic dc sc tc i rows.1 rows.2.1 t.length 0
          (updateRow rows.2.2 0 ((i + 1) * dc)) j2 = (dl3P s t ic dc sc tc (i + 1)).2 j2
      rw [d3inner_spec s t ic dc sc tc i rows.1 rows.2.1 t.length 0 _ (by omega)
        ?_ j2 hj2]
      · simp only [dl3P]
        exact dl3Cell_congr s t ic dc sc tc rows.1 rows.2.1 _ _ i h0 h1 j2 hj2
      · intro j3 hj3
        have hj30 : j3 = 0 := by omega
        subst hj30
        rw [updateRow_same]
        rfl
    · intro _ j2 hj2
      show rows.2.1 j2 = (dl3P s t ic dc sc tc (i + 1)).1 j2
      rw [h1 j2 hj2]
      rfl

/-- The three-row engine computes the conceptual DP matrix cell
(len1, len2). -/
theorem noncompatible_eq_DL3 (s t : List Nat) (ic dc sc tc : Nat) :
    dameraulevenshtein_internal_noncompatible s t ic dc sc tc =
      DL3 s t ic dc sc tc s.length t.length := by
  simp only [dameraulevenshtein_internal_noncompatible, DL3]
  refine d3loop_spec s t ic dc sc tc s.length 0 _ (by omega) ?_ ?_ t.length
    (Nat.le_refl _)
  · intro j hj
    show (if j ≤ t.length then j * ic else 0) = (dl3P s t ic dc sc tc 0).2 j
    rw [if_pos hj]
    rfl
  · intro h
    exact absurd h (by omega)

/-- The previous row of the reference DP pair is the second row of the DP
pair one step earlier. -/
theorem dl3P_fst (s t : List Nat) (ic dc sc tc : Nat) (i : Nat) (hi : 0 < i) :
    (dl3P s t ic dc sc tc i).1 = (dl3P s t ic dc sc tc (i - 1)).2 := by
  obtain ⟨k, rfl⟩ : ∃ k, i = k + 1 := ⟨i - 1, by omega⟩
  simp only [dl3P, Nat.add_sub_cancel]

/-- Boundary rows of the conceptual DP. -/
theorem DL3_base (s t : List Nat) (ic dc sc tc : Nat) :
    (∀ j, DL3 s t ic dc sc tc 0 j = j * ic) ∧
      (∀ i, DL3 s t ic dc sc tc (i + 1) 0 = (i + 1) * dc) := by
  constructor
  · intro j; rfl
  · intro i; rfl

/-- A guarded improvement step is a minimum. -/
theorem ite_lt_min (a b : Nat) : (if a < b then a else b) = min a b := by
  rcases Nat.lt_or_ge a b with h | h
  · rw [if_pos h, min_eq_left (Nat.le_of_lt h)]
  · rw [if_neg (by omega), min_eq_right h]

/-- The cell recurrence of the conceptual DP as a four-way minimum: the
guarded sequential updates of the engine compute exactly the minimum of
substitution, transposition (when applicable), deletion and insertion. -/
theorem DL3_rec (s t : List Nat) (ic dc sc tc : Nat) (i j : Nat) :
    DL3 s t ic dc sc tc (i + 1) (j + 1) =
      (if 0 < i ∧ 0 < j ∧ s.getD (i - 1) 0 = t.getD j 0 ∧
          s.getD i 0 = t.getD (j - 1) 0 then
        min (min (min
          (DL3 s t ic dc sc tc i j + (if s.getD i 0 = t.getD j 0 then 0 else sc))
          (DL3 s t ic dc sc tc (i - 1) (j - 1) + tc))
          (DL3 s t ic dc sc tc i (j + 1) + dc))
          (DL3 s t ic dc sc tc (i + 1) j + ic)
      else
        min (min
          (DL3 s t ic dc sc tc i j + (if s.getD i 0 = t.getD j 0 then 0 else sc))
          (DL3 s t ic dc sc tc i (j + 1) + dc))
          (DL3 s t ic dc sc tc (i + 1) j + ic)) := by
  have hL : DL3 s t ic dc sc tc (i + 1) (j + 1) =
      dl3Cell s t ic dc sc tc (dl3P s t ic dc sc tc i).1 (dl3P s t ic dc sc tc i).2
        i (j + 1) := rfl
  have hC : DL3 s t ic dc sc tc (i + 1) j =
      dl3Cell s t ic dc sc tc (dl3P s t ic dc sc tc i).1 (dl3P s t ic dc sc tc i).2
        i j := rfl
  rw [hL, hC]
  simp only [dl3Cell]
  obtain ⟨A, hA⟩ : ∃ a, (dl3P s t ic dc sc tc i).2 j = a := ⟨_, rfl⟩
  obtain ⟨B, hB⟩ : ∃ b, (dl3P s t ic dc sc tc i).2 (j + 1) = b := ⟨_, rfl⟩
  obtain ⟨C, hC2⟩ : ∃ c,
      dl3Cell s t ic dc sc tc (dl3P s t ic dc sc tc i).1 (dl3P s t ic dc sc tc i).2
        i j = c := ⟨_, rfl⟩
  obtain ⟨E, hE⟩ : ∃ e, (if s.getD i 0 = t.getD j 0 then 0 else sc) = e := ⟨_, rfl⟩
  have hAj : DL3 s t ic dc sc tc i j = A := hA
  have hBj : DL3 s t ic dc sc tc i (j + 1) = B := hB
  rw [hA, hB, hC2, hE, hAj, hBj]
  by_cases hg : 0 < i ∧ 0 < j ∧ s.getD (i - 1) 0 = t.getD j 0 ∧
      s.getD i 0 = t.getD (j - 1) 0
  · obtain ⟨hi, hj, hc1, hc2⟩ := hg
    have hD : DL3 s t ic dc sc tc (i - 1) (j - 1) =
        (dl3P s t ic dc sc tc i).1 (j - 1) := by
      rw [DL3, dl3P_fst s t ic dc sc tc i hi]
    rw [hD]
    obtain ⟨D, hDv⟩ : ∃ d, (dl3P s t ic dc sc tc i).1 (j - 1) = d := ⟨_, rfl⟩
    rw [hDv]
    rw [if_congr (show (0 < i ∧ 0 < j ∧ s.getD (i - 1) 0 = t.getD j 0 ∧
        s.getD i 0 = t.getD (j - 1) 0 ∧ D + tc < A + E) ↔ D + tc < A + E from
      ⟨fun h => h.2.2.2.2, fun h => ⟨hi, hj, hc1, hc2, h⟩⟩) rfl rfl,
      if_pos (show 0 < i ∧ 0 < j ∧ s.getD (i - 1) 0 = t.getD j 0 ∧
        s.getD i 0 = t.getD (j - 1) 0 from ⟨hi, hj, hc1, hc2⟩)]
    rw [ite_lt_min, ite_lt_min, ite_lt_min,
      Nat.min_comm (C + ic), Nat.min_comm (B + dc), Nat.min_comm (D + tc)]
  · rw [if_neg hg,
      if_neg (show ¬(0 < i ∧ 0 < j ∧ s.getD (i - 1) 0 = t.getD j 0 ∧
          s.getD i 0 = t.getD (j - 1) 0 ∧
          (dl3P s t ic dc sc tc i).1 (j - 1) + tc < A + E) from
        fun h => hg ⟨h.1, h.2.1, h.2.2.1, h.2.2.2.1⟩)]
    rw [ite_lt_min, ite_lt_min, Nat.min_comm (C + ic), Nat.min_comm (B + dc)]

/-! Helper lemmas for the claim statements. -/

/-- Wrapping up the bounded row loop always yields an ok result. -/
theorem lessEqualFinish_ok (m : Nat) (r : Sum Nat LoopSt) :
    ∃ v, lessEqualFinish m r = .ok v := by
  cases r with
  | inl v => exact ⟨v, rfl⟩
  | inr st => exact ⟨st.prev m, rfl⟩

/-- The part of the bounded engine after the length checks always yields an
ok result, whatever the preprocessing decided. -/
theorem lessEqualRun_ok (s t : PgText) (ic dc sc : Nat) (max_d : Int)
    (p : BoundPlan) : ∃ v, lessEqualRun s t ic dc sc max_d p = .ok v := by
  cases p with
  | reject => exact ⟨(max_d + 1).toNat, rfl⟩
  | run md stop0 => exact lessEqualFinish_ok s.length _

/-- One bounded row step from a well-formed window either hands over a
well-formed window (start ≤ stop ≤ m+1, strictly start < stop when a bound
is active) or returns early with the sentinel max_d + 1. -/
theorem rowStep_cases (mf : Nat → Nat → Bool) (ic dc sc : Nat) (md : Int)
    (m1 n1 j : Nat) (st : LoopSt) (h1 : st.start ≤ st.stop) (h2 : st.stop ≤ m1) :
    (∃ st2, lessEqualRowStep mf ic dc sc md m1 n1 j st = .inr st2 ∧
      st2.start ≤ st2.stop ∧ st2.stop ≤ m1 ∧ (0 ≤ md → st2.start < st2.stop)) ∨
    (0 ≤ md ∧ lessEqualRowStep mf ic dc sc md m1 n1 j st = .inl (md + 1).toNat) := by
  simp only [lessEqualRowStep]
  obtain ⟨KE, hKE⟩ : ∃ x, (md + 1).toNat = x := ⟨_, rfl⟩
  rw [hKE]
  obtain ⟨PE, hPE⟩ : ∃ x,
      (if st.stop < m1 then updateRow st.prev st.stop KE else st.prev) = x := ⟨_, rfl⟩
  rw [hPE]
  obtain ⟨SP, hSP⟩ : ∃ x, (if st.stop < m1 then st.stop + 1 else st.stop) = x :=
    ⟨_, rfl⟩
  rw [hSP]
  have hSPle : SP ≤ m1 := by rw [← hSP]; split <;> omega
  have hSPge : st.stop ≤ SP := by rw [← hSP]; split <;> omega
  obtain ⟨C0, hC0⟩ : ∃ x,
      (if st.start = 0 then updateRow st.curr 0 (j * ic) else st.curr) = x := ⟨_, rfl⟩
  rw [hC0]
  obtain ⟨I0, hI0⟩ : ∃ x, (if st.start = 0 then 1 else st.start) = x := ⟨_, rfl⟩
  rw [hI0]
  obtain ⟨F, hF⟩ : ∃ x, fillRow (mf j) ic dc sc PE (SP - I0) I0 C0 = x := ⟨_, rfl⟩
  rw [hF]
  by_cases hmd : 0 ≤ md
  · rw [if_pos hmd]
    obtain ⟨ZP, hZP⟩ : ∃ x, (j : Int) - ((n1 : Int) - (m1 : Int)) = x := ⟨_, rfl⟩
    rw [hZP]
    obtain ⟨S2, hS2⟩ : ∃ x, stopSlide md ic dc ZP F SP = x := ⟨_, rfl⟩
    rw [hS2]
    obtain ⟨R, hR⟩ : ∃ x,
        startSlide md ic dc ZP KE (S2 - st.start) st.start F PE = x := ⟨_, rfl⟩
    rw [hR]
    have hS2le : S2 ≤ SP := by rw [← hS2]; exact stopSlide_le md ic dc ZP F SP
    have hRge : st.start ≤ R.1 := by
      rw [← hR]; exact startSlide_start_ge md ic dc ZP KE (S2 - st.start) st.start F PE
    by_cases hcol : S2 ≤ R.1
    · rw [if_pos hcol]
      exact Or.inr ⟨hmd, rfl⟩
    · rw [if_neg hcol]
      refine Or.inl ⟨⟨R.2.1, R.2.2, R.1, S2⟩, rfl, ?_, ?_, fun _ => ?_⟩
      · show R.1 ≤ S2
        omega
      · show S2 ≤ m1
        omega
      · show R.1 < S2
        omega
  · rw [if_neg hmd]
    refine Or.inl ⟨⟨F, PE, st.start, SP⟩, rfl, ?_, ?_, fun h => absurd h hmd⟩
    · show st.start ≤ SP
      omega
    · show SP ≤ m1
      omega

/-! The claims. -/

/-- C1 counterexample: the claim fails as stated.  With source "" and
target "a" (both within the 255-character limit), insert cost 2 and
max_d = 0, the bounded entry point returns 2 through the empty-input
shortcut of line 134, although min(distance, max_d + 1) = min(2, 1) = 1. -/
theorem C1_counterexample :
    dameraulevenshtein_less_equal_internal [] [[97]] 2 1 1 1 0 = .ok 2 ∧
    dameraulevenshtein_internal [] [[97]] 2 1 1 1 = .ok 2 ∧
    min 2 ((0 : Int).toNat + 1) = 1 :=
  ⟨rfl, rfl, rfl⟩

/-- C1 (amended): for NONEMPTY well-formed inputs within the 255-character
limit and any nonnegative bound max_d, the bounded entry point returns
min(d, max_d + 1) where d is the distance the unbounded engine computes;
the empty-input shortcuts of lines 134-137 bypass the bound, so the
original claim holds only away from them. -/
theorem C1_bounded_min_nonempty (s t : PgText) (ic dc sc tc : Nat) (max_d : Int)
    (hwfs : Wf s) (hwft : Wf t) (hs : s ≠ []) (ht : t ≠ [])
    (hms : s.length ≤ MAXLEN) (hnt : t.length ≤ MAXLEN) (hmd : 0 ≤ max_d) :
    ∃ d : Nat, dameraulevenshtein_internal s t ic dc sc tc = .ok d ∧
      dameraulevenshtein_less_equal_internal s t ic dc sc tc max_d =
        .ok (min d (max_d.toNat + 1)) :=
  ⟨levW s t ic dc sc t.length s.length,
    internal_eq_levW s t ic dc sc tc hwfs hwft hms hnt,
    lessEqual_eq_min s t ic dc sc tc max_d hwfs hwft hs ht hms hnt hmd⟩

/-- C1 witness: the amended theorem applied to s = "k", t = "si" with unit
costs and max_d = 1. -/
theorem C1_bounded_min_nonempty_witness :
    ∃ d : Nat, dameraulevenshtein_internal [[107]] [[115], [105]] 1 1 1 1 = .ok d ∧
      dameraulevenshtein_less_equal_internal [[107]] [[115], [105]] 1 1 1 1 1 =
        .ok (min d ((1 : Int).toNat + 1)) :=
  C1_bounded_min_nonempty [[107]] [[115], [105]] 1 1 1 1 1
    (by unfold Wf; decide) (by unfold Wf; decide)
    (by decide) (by decide) (by decide) (by decide) (by decide)

/-- C2: the two-row engine returns the minimum total penalty over edit
scripts of single-character inserts, deletes and substitutions (characters,
not bytes, are compared), and the concrete unit-cost cases:
kitten/sitting = 3, flaw/lawn = 2, empty/empty = 0, abc/abc = 0, and a
source and target differing by one two-byte character have distance 1. -/
theorem C2_tworow_min_edit_penalty :
    (∀ (s t : PgText) (ic dc sc tc : Nat), Wf s → Wf t →
      s.length ≤ MAXLEN → t.length ≤ MAXLEN →
      ∃ d : Nat, dameraulevenshtein_internal s t ic dc sc tc = .ok d ∧
        Edits ic dc sc s t d ∧ (∀ k, Edits ic dc sc s t k → d ≤ k)) ∧
    dameraulevenshtein_internal [[107], [105], [116], [116], [101], [110]]
      [[115], [105], [116], [116], [105], [110], [103]] 1 1 1 1 = .ok 3 ∧
    dameraulevenshtein_internal [[102], [108], [97], [119]]
      [[108], [97], [119], [110]] 1 1 1 1 = .ok 2 ∧
    dameraulevenshtein_internal [] [] 1 1 1 1 = .ok 0 ∧
    dameraulevenshtein_internal [[97], [98], [99]] [[97], [98], [99]] 1 1 1 1 =
      .ok 0 ∧
    dameraulevenshtein_internal [[195, 169], [97]] [[97]] 1 1 1 1 = .ok 1 := by
  refine ⟨?_, rfl, rfl, rfl, rfl, rfl⟩
  intro s t ic dc sc tc hwfs hwft hms hnt
  refine ⟨distFull ic dc sc s t,
    internal_eq_levW s t ic dc sc tc hwfs hwft hms hnt, ?_, ?_⟩
  · exact (distFull_achievable ic dc sc s t).toEdits
  · intro k hk
    exact editsR_ge_distFull ic dc sc hk.toEditsR

set_option maxRecDepth 8192 in
/-- C3 counterexample: the claim fails as stated.  An empty source with a
256-character target returns ok 256 through the shortcut of line 134; the
length check of lines 143-148 is never reached, so exceeding the maximum
does not imply the error. -/
theorem C3_counterexample :
    MAXLEN < (List.replicate 256 ([97] : PgChar)).length ∧
    dameraulevenshtein_internal [] (List.replicate 256 [97]) 1 1 1 1 =
      .ok 256 := by
  constructor
  · rw [List.length_replicate]
    decide
  · have h : dameraulevenshtein_internal [] (List.replicate 256 [97]) 1 1 1 1 =
        .ok ((List.replicate 256 ([97] : PgChar)).length * 1) := rfl
    rw [h, List.length_replicate]

/-- C3 (amended): either engine reports the tooLong error exactly when both
inputs are nonempty and one exceeds 255 characters (the empty-input
shortcuts of lines 134-137 precede the length check), and tooLong is the
only error either engine ever raises. -/
theorem C3_error_characterization (s t : PgText) (ic dc sc tc : Nat)
    (max_d : Int) :
    (dameraulevenshtein_internal s t ic dc sc tc = .error .tooLong ↔
      s ≠ [] ∧ t ≠ [] ∧ (MAXLEN < s.length ∨ MAXLEN < t.length)) ∧
    (dameraulevenshtein_less_equal_internal s t ic dc sc tc max_d =
        .error .tooLong ↔
      s ≠ [] ∧ t ≠ [] ∧ (MAXLEN < s.length ∨ MAXLEN < t.length)) ∧
    (∀ e, dameraulevenshtein_internal s t ic dc sc tc = .error e →
      e = .tooLong) ∧
    (∀ e, dameraulevenshtein_less_equal_internal s t ic dc sc tc max_d =
        .error e → e = .tooLong) := by
  refine ⟨?_, ?_, fun e _ => by cases e; rfl, fun e _ => by cases e; rfl⟩
  · simp only [dameraulevenshtein_internal]
    by_cases hm : s.length = 0
    · rw [if_pos hm]
      exact ⟨fun h => Except.noConfusion h,
        fun h => absurd (List.length_eq_zero.mp hm) h.1⟩
    · rw [if_neg hm]
      by_cases hn : t.length = 0
      · rw [if_pos hn]
        exact ⟨fun h => Except.noConfusion h,
          fun h => absurd (List.length_eq_zero.mp hn) h.2.1⟩
      · rw [if_neg hn]
        by_cases hl : MAXLEN < s.length ∨ MAXLEN < t.length
        · rw [if_pos hl]
          refine ⟨fun _ => ⟨?_, ?_, hl⟩, fun _ => rfl⟩
          · intro hse
            exact hm (by rw [hse]; rfl)
          · intro hte
            exact hn (by rw [hte]; rfl)
        · rw [if_neg hl]
          exact ⟨fun h => Except.noConfusion h, fun h => absurd h.2.2 hl⟩
  · simp only [dameraulevenshtein_less_equal_internal]
    by_cases hm : s.length = 0
    · rw [if_pos hm]
      exact ⟨fun h => Except.noConfusion h,
        fun h => absurd (List.length_eq_zero.mp hm) h.1⟩
    · rw [if_neg hm]
      by_cases hn : t.length = 0
      · rw [if_pos hn]
        exact ⟨fun h => Except.noConfusion h,
          fun h => absurd (List.length_eq_zero.mp hn) h.2.1⟩
      · rw [if_neg hn]
        by_cases hl : MAXLEN < s.length ∨ MAXLEN < t.length
        · rw [if_pos hl]
          refine ⟨fun _ => ⟨?_, ?_, hl⟩, fun _ => rfl⟩
          · intro hse
            exact hm (by rw [hse]; rfl)
          · intro hte
            exact hn (by rw [hte]; rfl)
        · rw [if_neg hl]
          obtain ⟨v, hv⟩ := lessEqualRun_ok s t ic dc sc max_d
            (boundSetup s.length t.length ic dc sc max_d)
          rw [hv]
          exact ⟨fun h => Except.noConfusion h, fun h => absurd h.2.2 hl⟩

/-- C4: an empty source gives target-length times the insert cost, and an
empty target gives source-length times the delete cost (lines 134-137). -/
theorem C4_empty_cases (s t : PgText) (ic dc sc tc : Nat) :
    dameraulevenshtein_internal [] t ic dc sc tc = .ok (t.length * ic) ∧
    dameraulevenshtein_internal s [] ic dc sc tc = .ok (s.length * dc) := by
  constructor
  · rfl
  · by_cases hs : s.length = 0
    · have hse : s = [] := List.length_eq_zero.mp hs
      subst hse
      show Except.ok ((0 : Nat) * ic) = Except.ok (0 * dc)
      rw [Nat.zero_mul, Nat.zero_mul]
    · simp only [dameraulevenshtein_internal]
      rw [if_neg hs]
      rfl

/-- C5: from a window with start ≤ stop ≤ m+1, one step of the bounded row
loop either yields a window with start ≤ stop ≤ m+1 again (strictly
start < stop whenever a bound is active), or returns early, always with the
value max_d + 1; an early step makes the whole loop, and hence the engine
result, max_d + 1 immediately. -/
theorem C5_window_invariant (mf : Nat → Nat → Bool) (ic dc sc : Nat) (md : Int)
    (m1 n1 j : Nat) (st : LoopSt) (h1 : st.start ≤ st.stop) (h2 : st.stop ≤ m1) :
    (∀ st2, lessEqualRowStep mf ic dc sc md m1 n1 j st = .inr st2 →
      st2.start ≤ st2.stop ∧ st2.stop ≤ m1 ∧ (0 ≤ md → st2.start < st2.stop)) ∧
    (∀ v, lessEqualRowStep mf ic dc sc md m1 n1 j st = .inl v →
      0 ≤ md ∧ v = (md + 1).toNat) ∧
    (∀ v fuel m, lessEqualRowStep mf ic dc sc md m1 n1 j st = .inl v →
      lessEqualFinish m
        (runRows (lessEqualRowStep mf ic dc sc md m1 n1) (fuel + 1) j st) =
        .ok v) := by
  rcases rowStep_cases mf ic dc sc md m1 n1 j st h1 h2 with
    ⟨st2, hst2, hp⟩ | ⟨hmd, hstep⟩
  · refine ⟨?_, ?_, ?_⟩
    · intro st3 h3
      rw [hst2] at h3
      injection h3 with h
      rw [← h]
      exact hp
    · intro v hv
      rw [hst2] at hv
      exact Sum.noConfusion hv
    · intro v fuel m hv
      rw [hst2] at hv
      exact Sum.noConfusion hv
  · refine ⟨?_, ?_, ?_⟩
    · intro st3 h3
      rw [hstep] at h3
      exact Sum.noConfusion h3
    · intro v hv
      rw [hstep] at hv
      injection hv with h
      exact ⟨hmd, h.symm⟩
    · intro v fuel m hv
      simp only [runRows]
      rw [hv]
      rfl

/-- C5 witness: the invariant applied to a concrete window state. -/
theorem C5_window_invariant_witness :
    (∀ st2, lessEqualRowStep (fun _ _ => false) 1 1 1 0 2 2 1
        ⟨fun _ => 0, fun _ => 0, 0, 2⟩ = .inr st2 →
      st2.start ≤ st2.stop ∧ st2.stop ≤ 2 ∧ ((0 : Int) ≤ 0 → st2.start < st2.stop)) ∧
    (∀ v, lessEqualRowStep (fun _ _ => false) 1 1 1 0 2 2 1
        ⟨fun _ => 0, fun _ => 0, 0, 2⟩ = .inl v →
      (0 : Int) ≤ 0 ∧ v = ((0 : Int) + 1).toNat) ∧
    (∀ v fuel m, lessEqualRowStep (fun _ _ => false) 1 1 1 0 2 2 1
        ⟨fun _ => 0, fun _ => 0, 0, 2⟩ = .inl v →
      lessEqualFinish m
        (runRows (lessEqualRowStep (fun _ _ => false) 1 1 1 0 2 2) (fuel + 1) 1
          ⟨fun _ => 0, fun _ => 0, 0, 2⟩) = .ok v) :=
  C5_window_invariant (fun _ _ => false) 1 1 1 0 2 2 1
    ⟨fun _ => 0, fun _ => 0, 0, 2⟩ (by decide) (by decide)

/-- C6: with a nonnegative bound and nonempty in-limit inputs, if the
theoretical minimum distance exceeds max_d the bounded engine returns
max_d + 1 immediately, and if max_d is at least the theoretical maximum,
windowing is disabled and the bounded engine returns exactly what the
unbounded engine returns. -/
theorem C6_theoretical_bounds (s t : PgText) (ic dc sc tc : Nat) (max_d : Int)
    (hs : s ≠ []) (ht : t ≠ []) (hms : s.length ≤ MAXLEN)
    (hnt : t.length ≤ MAXLEN) (hmd : 0 ≤ max_d) :
    (max_d < (minTheoN s.length t.length ic dc : Int) →
      dameraulevenshtein_less_equal_internal s t ic dc sc tc max_d =
        .ok (max_d.toNat + 1)) ∧
    ((maxTheoN s.length t.length ic dc sc : Int) ≤ max_d →
      dameraulevenshtein_less_equal_internal s t ic dc sc tc max_d =
        dameraulevenshtein_internal s t ic dc sc tc) := by
  have hm0 : ¬ s.length = 0 := fun h => hs (List.length_eq_zero.mp h)
  have hn0 : ¬ t.length = 0 := fun h => ht (List.length_eq_zero.mp h)
  constructor
  · intro hrej
    simp only [dameraulevenshtein_less_equal_internal]
    rw [if_neg hm0, if_neg hn0,
      if_neg (by omega : ¬ (MAXLEN < s.length ∨ MAXLEN < t.length)),
      boundSetup_reject ic dc sc s.length t.length max_d hmd hrej]
    show Except.ok ((max_d + 1).toNat) = Except.ok (max_d.toNat + 1)
    exact congrArg Except.ok (by omega)
  · intro hdis
    have hminmax : minTheoN s.length t.length ic dc ≤
        maxTheoN s.length t.length ic dc sc := Nat.le_add_right _ _
    have hR : dameraulevenshtein_internal s t ic dc sc tc =
        .ok ((runRowsU (rowStepU
            (if s.length = byteLen s ∧ t.length = byteLen t then fastMatch s t
              else slowMatch s t) ic dc sc (s.length + 1)) t.length 1
          (initRow dc (s.length + 1), fun _ => 0)).1 s.length) := by
      simp only [dameraulevenshtein_internal]
      rw [if_neg hm0, if_neg hn0,
        if_neg (by omega : ¬ (MAXLEN < s.length ∨ MAXLEN < t.length))]
    rw [hR]
    simp only [dameraulevenshtein_less_equal_internal]
    rw [if_neg hm0, if_neg hn0,
      if_neg (by omega : ¬ (MAXLEN < s.length ∨ MAXLEN < t.length)),
      boundSetup_disabled ic dc sc s.length t.length max_d hmd (by omega) hdis]
    simp only [lessEqualRun]
    rw [runRows_disabled]
    rfl

/-- C6 witness: both implications at s = "a", t = "ab", unit costs,
max_d = 0. -/
theorem C6_theoretical_bounds_witness :
    ((0 : Int) < (minTheoN 1 2 1 1 : Int) →
      dameraulevenshtein_less_equal_internal [[97]] [[97], [98]] 1 1 1 1 0 =
        .ok ((0 : Int).toNat + 1)) ∧
    ((maxTheoN 1 2 1 1 1 : Int) ≤ 0 →
      dameraulevenshtein_less_equal_internal [[97]] [[97], [98]] 1 1 1 1 0 =
        dameraulevenshtein_internal [[97]] [[97], [98]] 1 1 1 1) :=
  C6_theoretical_bounds [[97]] [[97], [98]] 1 1 1 1 0 (by decide) (by decide)
    (by decide) (by decide) (by decide)

/-- C7: both two-row engines ignore the transposition cost parameter
entirely: any two values of it give identical results on every input and
every bound. -/
theorem C7_transpose_cost_unused (s t : PgText) (ic dc sc tc1 tc2 : Nat)
    (max_d : Int) :
    dameraulevenshtein_internal s t ic dc sc tc1 =
      dameraulevenshtein_internal s t ic dc sc tc2 ∧
    dameraulevenshtein_less_equal_internal s t ic dc sc tc1 max_d =
      dameraulevenshtein_less_equal_internal s t ic dc sc tc2 max_d :=
  ⟨rfl, rfl⟩

/-- C8: the three-row engine computes the conceptual DP matrix whose cell
(i+1, j+1) is the minimum of substitution, transposition (only when i, j > 0
and the adjacent characters are swapped matches), deletion and insertion;
with unit costs it gives ab/ba distance 1, versus 2 from the two-row engine
that disallows transposition. -/
theorem C8_threerow_recurrence :
    (∀ (s t : List Nat) (ic dc sc tc : Nat),
      dameraulevenshtein_internal_noncompatible s t ic dc sc tc =
        DL3 s t ic dc sc tc s.length t.length) ∧
    (∀ (s t : List Nat) (ic dc sc tc i j : Nat),
      DL3 s t ic dc sc tc (i + 1) (j + 1) =
        (if 0 < i ∧ 0 < j ∧ s.getD (i - 1) 0 = t.getD j 0 ∧
            s.getD i 0 = t.getD (j - 1) 0 then
          min (min (min
            (DL3 s t ic dc sc tc i j +
              (if s.getD i 0 = t.getD j 0 then 0 else sc))
            (DL3 s t ic dc sc tc (i - 1) (j - 1) + tc))
            (DL3 s t ic dc sc tc i (j + 1) + dc))
            (DL3 s t ic dc sc tc (i + 1) j + ic)
        else
          min (min
            (DL3 s t ic dc sc tc i j +
              (if s.getD i 0 = t.getD j 0 then 0 else sc))
            (DL3 s t ic dc sc tc i (j + 1) + dc))
            (DL3 s t ic dc sc tc (i + 1) j + ic))) ∧
    dameraulevenshtein_internal_noncompatible [97, 98] [98, 97] 1 1 1 1 = 1 ∧
    dameraulevenshtein_internal [[97], [98]] [[98], [97]] 1 1 1 1 = .ok 2 :=
  ⟨noncompatible_eq_DL3, DL3_rec, rfl, rfl⟩

/-- C9: with unit insert, delete and substitute costs the unbounded two-row
distance is symmetric on well-formed inputs within the length limit. -/
theorem C9_unit_cost_symmetry (s t : PgText) (tc : Nat) (hwfs : Wf s)
    (hwft : Wf t) (hms : s.length ≤ MAXLEN) (hnt : t.length ≤ MAXLEN) :
    ∃ d : Nat, dameraulevenshtein_internal s t 1 1 1 tc = .ok d ∧
      dameraulevenshtein_internal t s 1 1 1 tc = .ok d := by
  have h1 : distFull 1 1 1 t s ≤ distFull 1 1 1 s t :=
    editsR_ge_distFull 1 1 1 ((distFull_achievable 1 1 1 s t).toEdits.swap).toEditsR
  have h2 : distFull 1 1 1 s t ≤ distFull 1 1 1 t s :=
    editsR_ge_distFull 1 1 1 ((distFull_achievable 1 1 1 t s).toEdits.swap).toEditsR
  refine ⟨distFull 1 1 1 s t,
    internal_eq_levW s t 1 1 1 tc hwfs hwft hms hnt, ?_⟩
  rw [internal_eq_levW t s 1 1 1 tc hwft hwfs hnt hms]
  exact congrArg Except.ok (Nat.le_antisymm h1 h2)

/-- C9 witness: symmetry at s = "ab", t = "ba". -/
theorem C9_unit_cost_symmetry_witness :
    ∃ d : Nat, dameraulevenshtein_internal [[97], [98]] [[98], [97]] 1 1 1 1 =
        .ok d ∧
      dameraulevenshtein_internal [[98], [97]] [[97], [98]] 1 1 1 1 = .ok d :=
  C9_unit_cost_symmetry [[97], [98]] [[98], [97]] 1
    (by unfold Wf; decide) (by unfold Wf; decide) (by decide) (by decide)

/-- C10: when insert + delete = 0 and the bound was not already rejected,
the capped substitute cost makes the theoretical maximum equal the
theoretical minimum, so the preprocessing disables windowing and the
division of the slack by insert + delete is never reached. -/
theorem C10_no_division_by_zero (m n ic dc sc : Nat) (max_d : Int)
    (h0 : ic + dc = 0) (hmd : 0 ≤ max_d)
    (hacc : (minTheoN m n ic dc : Int) ≤ max_d) :
    boundSetup m n ic dc sc max_d = .run (-1) (m + 1) := by
  have hmax : maxTheoN m n ic dc sc = minTheoN m n ic dc := by
    unfold maxTheoN
    rw [h0, Nat.min_zero, Nat.zero_mul, Nat.add_zero]
  exact boundSetup_disabled ic dc sc m n max_d hmd (by omega)
    (by rw [hmax]; omega)

/-- C10 witness: zero insert and delete costs with an accepted bound. -/
theorem C10_no_division_by_zero_witness :
    boundSetup 3 5 0 0 7 4 = .run (-1) 4 :=
  C10_no_division_by_zero 3 5 0 0 7 4 (by decide) (by decide) (by decide)

end FuzzyStrMatch
